import Mathlib

/-!
# Verification of the SKiM metagenomic classifier core

Shallow embedding of the SKiM source (Rust) into Lean 4, together with proofs
of the specification claims.  Machine integers (`usize`, `u16`, `u32`) are
modelled as `Nat`; the k-mer code keeps all values below `4^k ≤ 4^15 < 2^30`,
far from 64-bit overflow, so unbounded `Nat` arithmetic coincides with the
machine arithmetic.  `f64` quantities that hold exact small integers and the
extended-exponent scalar `BigExpFloat` are modelled as `ℚ`.
-/

namespace Skim

/-! ## K-mer iterator (src/kmer_iter.rs)

Bytes of the input sequence are modelled as `Nat` (the `u8` byte value). -/

/-- `base2int` from src/kmer_iter.rs: A/a ↦ 0, C/c ↦ 1, G/g ↦ 2, T/t ↦ 3,
anything else ↦ `None`.  Byte literals: A=65, a=97, C=67, c=99, G=71, g=103,
T=84, t=116. -/
def base2int (c : Nat) : Option Nat :=
  if c = 65 then some 0
  else if c = 97 then some 0
  else if c = 67 then some 1
  else if c = 99 then some 1
  else if c = 71 then some 2
  else if c = 103 then some 2
  else if c = 84 then some 3
  else if c = 116 then some 3
  else none

/-- The `COMPLEMENT` table `[3, 2, 1, 0]` of src/kmer_iter.rs, as the lookup
`COMPLEMENT[b]`. -/
def complementCode (b : Nat) : Nat := [3, 2, 1, 0].getD b 0

/-- Loop body of `KmerIter::reverse_compliment`: `kmer_length` iterations of
popping the low two bits of `complement_kmer` and pushing them onto `buffer`
(`buffer = (buffer << 2) | letter`). -/
def reverseComplimentLoop : Nat → Nat → Nat → Nat
  | 0, buffer, _ => buffer
  | n + 1, buffer, ck => reverseComplimentLoop n ((buffer <<< 2) ||| (ck &&& 3)) (ck >>> 2)

/-- `KmerIter::reverse_compliment`.  In the source `(!kmer) & kmer_filter_bits`
complements `kmer` within the low `2k` bits (the 64-bit `!` followed by the
mask `2^(2k) - 1`), i.e. `(kmer % 4^k) ^^^ (4^k - 1)`. -/
def reverseCompliment (kmerLength : Nat) (kmer : Nat) : Nat :=
  reverseComplimentLoop kmerLength 0 ((kmer % 4 ^ kmerLength) ^^^ (4 ^ kmerLength - 1))

/-- Accumulator loop for itertools `position_min`: index of the minimum,
ties resolved to the earliest position (replace only on strictly smaller). -/
def positionMinAux : List Nat → Nat → Nat → Nat → Nat
  | [], _, bestIdx, _ => bestIdx
  | x :: xs, i, bestIdx, bestVal =>
    if x < bestVal then positionMinAux xs (i + 1) i x
    else positionMinAux xs (i + 1) bestIdx bestVal

/-- itertools `position_min` over a list of values. -/
def positionMin : List Nat → Option Nat
  | [] => none
  | x :: xs => some (positionMinAux xs 1 0 x)

/-- `KmerIter::curr_is_syncmer`.  `kmer_syncmer_diff = k - s`,
`smer_filter_bits = 2^(2s) - 1`; the s-mer at offset `i` (0-based from the
left) is `(kmer >> ((diff - i) << 1)) & smer_mask`. -/
def currIsSyncmer (kmerLength syncmerLength syncmerOffset : Nat) (canonical : Bool)
    (currKmer currRevCompKmer : Nat) : Bool :=
  let diff := kmerLength - syncmerLength
  if diff = 0 then
    true
  else
    let kmer := if canonical then min currKmer currRevCompKmer else currKmer
    let vals := (List.range (diff + 1)).map
      (fun i => (kmer >>> ((diff - i) * 2)) &&& (4 ^ syncmerLength - 1))
    positionMin vals = some syncmerOffset

/-- Control state of `KmerIter`: either still filling a fresh k-mer window
(`init_next_kmer`'s loop, holding `buffer` and `position`) or sliding an
initialized window (`find_next_syncmer`, holding `curr_kmer` and
`curr_rev_comp_kmer`). -/
inductive IterMode : Type
  | scan (buffer position : Nat)
  | slide (currKmer currRevCompKmer : Nat)

/-- Full emission list of `KmerIter` (src/kmer_iter.rs) from a given control
state, `last_returned` value and remaining input.  Mirrors
`init_next_kmer` / `find_next_syncmer`:

* invalid byte: reset the counters (scan mode with empty buffer);
* scan mode, valid byte: `buffer = (buffer << 2) | b`; when the window is
  full, set `curr_kmer = buffer`, `curr_rev_comp_kmer = reverse_compliment`
  and fall into the emission decision;
* slide mode, valid byte:
  `curr_kmer = ((curr_kmer << 2) | b) & kmer_filter_bits`,
  `curr_rev_comp_kmer = (curr_rev_comp_kmer >> 2) | (COMPLEMENT[b] << 2(k-1))`;
* emission: the candidate is `min(curr, rev_comp)` when canonical; it is
  emitted iff `curr_is_syncmer` holds and it differs from `last_returned`.

This covers `kmer_length ≥ 1` (the spec requires `1 ≤ k ≤ 15`). -/
def kmerEmits (kmerLength syncmerLength syncmerOffset : Nat) (canonical : Bool) :
    IterMode → Option Nat → List Nat → List Nat
  | _, _, [] => []
  | IterMode.scan buffer position, last, c :: rest =>
    match base2int c with
    | none => kmerEmits kmerLength syncmerLength syncmerOffset canonical
        (IterMode.scan 0 0) last rest
    | some b =>
      let buffer' := (buffer <<< 2) ||| b
      if position + 1 = kmerLength then
        let curr := buffer'
        let rc := reverseCompliment kmerLength buffer'
        let cand := if canonical then min curr rc else curr
        if currIsSyncmer kmerLength syncmerLength syncmerOffset canonical curr rc ∧
            last ≠ some cand then
          cand :: kmerEmits kmerLength syncmerLength syncmerOffset canonical
            (IterMode.slide curr rc) (some cand) rest
        else
          kmerEmits kmerLength syncmerLength syncmerOffset canonical
            (IterMode.slide curr rc) last rest
      else
        kmerEmits kmerLength syncmerLength syncmerOffset canonical
          (IterMode.scan buffer' (position + 1)) last rest
  | IterMode.slide currKmer currRevCompKmer, last, c :: rest =>
    match base2int c with
    | none => kmerEmits kmerLength syncmerLength syncmerOffset canonical
        (IterMode.scan 0 0) last rest
    | some b =>
      let curr := ((currKmer <<< 2) ||| b) &&& (4 ^ kmerLength - 1)
      let rc := (currRevCompKmer >>> 2) ||| (complementCode b <<< ((kmerLength - 1) * 2))
      let cand := if canonical then min curr rc else curr
      if currIsSyncmer kmerLength syncmerLength syncmerOffset canonical curr rc ∧
          last ≠ some cand then
        cand :: kmerEmits kmerLength syncmerLength syncmerOffset canonical
          (IterMode.slide curr rc) (some cand) rest
      else
        kmerEmits kmerLength syncmerLength syncmerOffset canonical
          (IterMode.slide curr rc) last rest

/-- The list of all values yielded by `KmerIter::from(sequence, kmer_length,
canonical, syncmer_length, syncmer_offset)` iterated to exhaustion. -/
def kmerIterEmits (sequence : List Nat) (kmerLength : Nat) (canonical : Bool)
    (syncmerLength syncmerOffset : Nat) : List Nat :=
  kmerEmits kmerLength syncmerLength syncmerOffset canonical (IterMode.scan 0 0) none sequence

/-! ### Functional characterization of the iterator

The iterator is proved equal to: enumerate every fully-valid length-`k`
window of the sequence in order, take the canonical value of each, keep the
syncmers, and collapse consecutive duplicate emissions (the `last_returned`
check). -/

/-- A byte is valid iff `base2int` accepts it. -/
def validByte (c : Nat) : Bool := (base2int c).isSome

/-- The two-bit code of a byte (0 for invalid bytes, which are never encoded). -/
def codeOf (c : Nat) : Nat := (base2int c).getD 0

/-- Big-endian base-4 value of a list of two-bit codes (first code is the
high digit), as accumulated by the iterator: `buffer = buffer * 4 + code`. -/
def encC (u : List Nat) : Nat := u.foldl (fun a b => a * 4 + b) 0

/-- The code list of a byte window. -/
def codesOf (w : List Nat) : List Nat := w.map codeOf

/-- The packed 2k-bit integer of a byte window. -/
def encB (w : List Nat) : Nat := encC (codesOf w)

/-- Reverse complement on code lists: reverse the base order and complement
each base (A↔T, C↔G, i.e. `b ↦ 3 - b`). -/
def rcCodes (u : List Nat) : List Nat := (u.map (fun b => 3 - b)).reverse

/-- The first k-length window of a list, provided it is complete and fully
valid. -/
def headWindow? (k : Nat) (l : List Nat) : Option (List Nat) :=
  if (l.take k).length = k ∧ (l.take k).all validByte then some (l.take k) else none

/-- All fully-valid k-length windows of a sequence, in left-to-right order. -/
def windows (k : Nat) : List Nat → List (List Nat)
  | [] => []
  | c :: rest =>
    match headWindow? k (c :: rest) with
    | some w => w :: windows k rest
    | none => windows k rest

/-- The candidate value the iterator derives from a window: the canonical
form `min(kmer, rev_comp)` when `canonical`, the plain k-mer otherwise. -/
def candOf (k : Nat) (canonical : Bool) (w : List Nat) : Nat :=
  if canonical then min (encB w) (reverseCompliment k (encB w)) else encB w

/-- The syncmer test the iterator applies to a window. -/
def syncOf (k s t : Nat) (canonical : Bool) (w : List Nat) : Bool :=
  currIsSyncmer k s t canonical (encB w) (reverseCompliment k (encB w))

/-- Candidate emissions before deduplication: canonical values of the
syncmer-passing valid windows, in order. -/
def windowCands (k s t : Nat) (canonical : Bool) (seq : List Nat) : List Nat :=
  ((windows k seq).filter (syncOf k s t canonical)).map (candOf k canonical)

/-- Collapse elements equal to the previous emission, starting from an
optional previously-returned value (the `last_returned` check). -/
def dedupFrom : Option Nat → List Nat → List Nat
  | _, [] => []
  | last, x :: xs => if last = some x then dedupFrom last xs else x :: dedupFrom (some x) xs

/-- The functional specification of the iterator's full emission list. -/
def specEmits (k s t : Nat) (canonical : Bool) (seq : List Nat) : List Nat :=
  dedupFrom none (windowCands k s t canonical seq)

/-- Modelled from the spec: `CanonicalKmerIter` (declared by database.rs and
the tests; its definition is not under src/) is the k-mer iterator with
`canonical = true`; a `None` syncmer argument disables syncmer filtering,
which per the spec (and the binaries, which pass `None` exactly when
`s = k`) is the trivial test `s = k`, `t = 0`. -/
def canonicalKmerIterEmits (sequence : List Nat) (kmerLength : Nat)
    (syncmerInfo : Option (Nat × Nat)) : List Nat :=
  match syncmerInfo with
  | some (s, t) => kmerIterEmits sequence kmerLength true s t
  | none => kmerIterEmits sequence kmerLength true kmerLength 0

/-! ### Bit-level arithmetic helpers -/

theorem four_pow_eq (k : Nat) : (4 : Nat) ^ k = 2 ^ (2 * k) := by
  rw [show (4 : Nat) = 2 ^ 2 from rfl, ← pow_mul]

theorem shiftLeft_two (a : Nat) : a <<< 2 = 4 * a := by
  rw [Nat.shiftLeft_eq]; ring

theorem shiftRight_two (a : Nat) : a >>> 2 = a / 4 := by
  rw [Nat.shiftRight_eq_div_pow]

theorem and_three (a : Nat) : a &&& 3 = a % 4 := by
  simpa using Nat.and_pow_two_sub_one_eq_mod a 2

theorem and_four_pow_sub_one (a k : Nat) : a &&& (4 ^ k - 1) = a % 4 ^ k := by
  rw [four_pow_eq, Nat.and_pow_two_sub_one_eq_mod]

theorem shiftLeft_lor_small {b : Nat} (hb : b < 4) (a : Nat) :
    (a <<< 2) ||| b = 4 * a + b := by
  rw [shiftLeft_two, show (4 : Nat) * a = 2 ^ 2 * a by norm_num,
    ← Nat.mul_add_lt_is_or (by norm_num [hb] : b < 2 ^ 2)]

theorem lor_shiftLeft_high {a : Nat} (m : Nat) (ha : a < 4 ^ m) (c : Nat) :
    a ||| (c <<< (m * 2)) = c * 4 ^ m + a := by
  have h4 : (4 : Nat) ^ m = 2 ^ (m * 2) := by rw [four_pow_eq, Nat.mul_comm]
  have ha2 : a < 2 ^ (m * 2) := h4 ▸ ha
  have key := Nat.mul_add_lt_is_or ha2 c
  rw [Nat.shiftLeft_eq, Nat.lor_comm, Nat.mul_comm c, ← key, ← h4, Nat.mul_comm]

theorem xor_four_pow_sub_one {x : Nat} {m : Nat} (hx : x < 4 ^ m) :
    x ^^^ (4 ^ m - 1) = 4 ^ m - 1 - x := by
  rw [four_pow_eq] at hx ⊢
  apply Nat.eq_of_testBit_eq
  intro i
  have h1 : 2 ^ (2 * m) - 1 - x = 2 ^ (2 * m) - (x + 1) := by omega
  rw [Nat.testBit_xor, Nat.testBit_two_pow_sub_one, h1,
    Nat.testBit_two_pow_sub_succ hx]
  by_cases hi : i < 2 * m
  · simp [hi]
  · have hx' : x < 2 ^ i :=
      lt_of_lt_of_le hx (Nat.pow_le_pow_right (by norm_num) (by omega))
    simp [hi, Nat.testBit_lt_two_pow hx']

theorem base2int_lt {c b : Nat} (h : base2int c = some b) : b < 4 := by
  unfold base2int at h
  split_ifs at h <;> simp_all <;> omega

theorem complementCode_eq {b : Nat} (hb : b < 4) : complementCode b = 3 - b := by
  interval_cases b <;> rfl

/-! ### `encC` facts -/

theorem encC_nil : encC [] = 0 := rfl

theorem encC_foldl (u : List Nat) (a : Nat) :
    u.foldl (fun a b => a * 4 + b) a = a * 4 ^ u.length + encC u := by
  induction u generalizing a with
  | nil => simp [encC]
  | cons x xs ih =>
    have hx : encC (x :: xs) = x * 4 ^ xs.length + encC xs := by
      show List.foldl _ (0 * 4 + x) xs = _
      rw [ih]
      ring
    rw [List.foldl_cons, ih (a * 4 + x), List.length_cons, hx]
    ring

theorem encC_cons (x : Nat) (u : List Nat) :
    encC (x :: u) = x * 4 ^ u.length + encC u := by
  simpa [encC] using encC_foldl u x

theorem encC_append (u v : List Nat) :
    encC (u ++ v) = encC u * 4 ^ v.length + encC v := by
  simp only [encC, List.foldl_append]
  exact encC_foldl v (encC u)

theorem encC_snoc (u : List Nat) (b : Nat) :
    encC (u ++ [b]) = encC u * 4 + b := by
  simp [encC_append, encC_cons, encC_nil]

theorem encC_lt {u : List Nat} (h : ∀ b ∈ u, b < 4) : encC u < 4 ^ u.length := by
  induction u with
  | nil => simp [encC]
  | cons x xs ih =>
    rw [encC_cons]
    have hx : x < 4 := h x (by simp)
    have hxs := ih (fun b hb => h b (List.mem_cons_of_mem _ hb))
    have h1 : x * 4 ^ xs.length ≤ 3 * 4 ^ xs.length :=
      Nat.mul_le_mul_right _ (by omega)
    calc x * 4 ^ xs.length + encC xs < x * 4 ^ xs.length + 4 ^ xs.length := by omega
    _ ≤ 3 * 4 ^ xs.length + 4 ^ xs.length := by omega
    _ = 4 ^ (xs.length + 1) := by ring
    _ = 4 ^ (x :: xs).length := by simp

theorem encC_map_complement {u : List Nat} (h : ∀ b ∈ u, b < 4) :
    encC (u.map (fun b => 3 - b)) = 4 ^ u.length - 1 - encC u := by
  induction u with
  | nil => simp [encC]
  | cons x xs ih =>
    have hx : x < 4 := h x (by simp)
    have hxs : ∀ b ∈ xs, b < 4 := fun b hb => h b (List.mem_cons_of_mem _ hb)
    have hlt := encC_lt hxs
    rw [List.map_cons, encC_cons, encC_cons, ih hxs]
    simp only [List.length_map, List.length_cons]
    have h1 : (4 : Nat) ^ (xs.length + 1) = 4 * 4 ^ xs.length := by ring
    have h2 : x * 4 ^ xs.length + encC xs < 4 ^ (xs.length + 1) := by
      have : x * 4 ^ xs.length ≤ 3 * 4 ^ xs.length := Nat.mul_le_mul_right _ (by omega)
      omega
    have h3 : (3 - x) * 4 ^ xs.length = 3 * 4 ^ xs.length - x * 4 ^ xs.length :=
      Nat.sub_mul 3 x _ ▸ rfl
    have h4 : x * 4 ^ xs.length ≤ 3 * 4 ^ xs.length := Nat.mul_le_mul_right _ (by omega)
    omega

/-! ### Reverse complement: closed form -/

theorem codeOf_lt (c : Nat) : codeOf c < 4 := by
  unfold codeOf base2int
  split_ifs <;> simp

theorem codeOf_eq {c b : Nat} (h : base2int c = some b) : codeOf c = b := by
  simp [codeOf, h]

theorem codesOf_lt (w : List Nat) : ∀ b ∈ codesOf w, b < 4 := by
  intro b hb
  rcases List.mem_map.mp hb with ⟨c, _, rfl⟩
  exact codeOf_lt c

theorem encB_lt (w : List Nat) : encB w < 4 ^ w.length := by
  have := encC_lt (codesOf_lt w)
  simpa [encB, codesOf] using this

theorem rcCodes_cons (d : Nat) (u : List Nat) :
    rcCodes (d :: u) = (u.map (fun b => 3 - b)).reverse ++ [3 - d] := by
  simp [rcCodes]

theorem rcCodes_snoc (u : List Nat) (b : Nat) :
    rcCodes (u ++ [b]) = (3 - b) :: (u.map (fun b => 3 - b)).reverse := by
  simp [rcCodes]

theorem reverseComplimentLoop_spec {u : List Nat} (h : ∀ b ∈ u, b < 4) (buffer : Nat) :
    reverseComplimentLoop u.length buffer (encC u) =
      buffer * 4 ^ u.length + encC u.reverse := by
  induction u using List.reverseRecOn generalizing buffer with
  | nil => simp [encC, reverseComplimentLoop]
  | append_singleton l d ih =>
    have hd : d < 4 := h d (by simp)
    have hl : ∀ b ∈ l, b < 4 := fun b hb => h b (by simp [hb])
    have hv : encC (l ++ [d]) = encC l * 4 + d := encC_snoc l d
    have hmod : encC (l ++ [d]) % 4 = d := by
      rw [hv, Nat.add_comm, Nat.mul_comm, Nat.add_mul_mod_self_left, Nat.mod_eq_of_lt hd]
    have hdiv : encC (l ++ [d]) / 4 = encC l := by
      rw [hv, Nat.add_comm, Nat.mul_comm]
      rw [Nat.add_mul_div_left _ _ (by norm_num : (0:Nat) < 4), Nat.div_eq_of_lt hd]
      omega
    have hlen : (l ++ [d]).length = l.length + 1 := by simp
    rw [hlen, reverseComplimentLoop, and_three, shiftRight_two, hmod, hdiv,
      shiftLeft_lor_small hd, ih hl]
    have : (l ++ [d]).reverse = d :: l.reverse := by simp
    rw [this, encC_cons]
    simp only [List.length_reverse]
    ring

theorem reverseCompliment_encC {u : List Nat} (h : ∀ b ∈ u, b < 4) :
    reverseCompliment u.length (encC u) = encC (rcCodes u) := by
  unfold reverseCompliment
  have hlt := encC_lt h
  rw [Nat.mod_eq_of_lt hlt, xor_four_pow_sub_one hlt, ← encC_map_complement h]
  have hmap : ∀ b ∈ u.map (fun b => 3 - b), b < 4 := by
    intro b hb
    rcases List.mem_map.mp hb with ⟨c, _, rfl⟩
    omega
  have hlen : u.length = (u.map (fun b => 3 - b)).length := by simp
  rw [hlen, reverseComplimentLoop_spec hmap 0]
  simp [rcCodes]

/-- Closed form of `reverse_compliment` on a byte window. -/
theorem reverseCompliment_encB (w : List Nat) :
    reverseCompliment w.length (encB w) = encC (rcCodes (codesOf w)) := by
  have h := reverseCompliment_encC (codesOf_lt w)
  simpa [encB, codesOf] using h

/-! ### Iterator state-update lemmas -/

theorem scan_update {c b : Nat} (hb : base2int c = some b) (v : List Nat) :
    (encB v <<< 2) ||| b = encB (v ++ [c]) := by
  rw [shiftLeft_lor_small (base2int_lt hb)]
  simp only [encB, codesOf, List.map_append, List.map_cons, List.map_nil]
  rw [encC_snoc, codeOf_eq hb]
  ring

theorem slide_curr_update {c b : Nat} (hb : base2int c = some b) (a : Nat) (w' : List Nat) :
    ((encB (a :: w') <<< 2) ||| b) &&& (4 ^ (w'.length + 1) - 1) = encB (w' ++ [c]) := by
  rw [scan_update hb, and_four_pow_sub_one]
  have h1 : encB ((a :: w') ++ [c]) = codeOf a * 4 ^ (w'.length + 1) + encB (w' ++ [c]) := by
    simp only [encB, codesOf, List.map_append, List.map_cons, List.map_nil, List.cons_append]
    rw [encC_cons]
    simp
  have h2 : encB (w' ++ [c]) < 4 ^ (w'.length + 1) := by
    have := encB_lt (w' ++ [c])
    simpa using this
  rw [show (a :: w') ++ [c] = a :: (w' ++ [c]) from rfl] at h1 ⊢
  rw [h1, Nat.add_comm, Nat.add_mul_mod_self_right, Nat.mod_eq_of_lt h2]

theorem slide_rc_update {c b : Nat} (hb : base2int c = some b) (a : Nat) (w' : List Nat) :
    (reverseCompliment (w'.length + 1) (encB (a :: w')) >>> 2) |||
      (complementCode b <<< ((w'.length + 1 - 1) * 2)) =
    reverseCompliment (w'.length + 1) (encB (w' ++ [c])) := by
  have hb4 : b < 4 := base2int_lt hb
  have hlen1 : (a :: w').length = w'.length + 1 := by simp
  have hlen2 : (w' ++ [c]).length = w'.length + 1 := by simp
  have hL : reverseCompliment (w'.length + 1) (encB (a :: w')) =
      encC (rcCodes (codesOf (a :: w'))) := by
    rw [← hlen1]; exact reverseCompliment_encB (a :: w')
  have hR : reverseCompliment (w'.length + 1) (encB (w' ++ [c])) =
      encC (rcCodes (codesOf (w' ++ [c]))) := by
    rw [← hlen2]; exact reverseCompliment_encB (w' ++ [c])
  rw [hL, hR]
  have hcodes1 : codesOf (a :: w') = codeOf a :: codesOf w' := by simp [codesOf]
  have hcodes2 : codesOf (w' ++ [c]) = codesOf w' ++ [b] := by
    simp [codesOf, codeOf_eq hb]
  rw [hcodes1, hcodes2, rcCodes_cons, rcCodes_snoc]
  set xs := ((codesOf w').map (fun b => 3 - b)).reverse with hxs
  have hxslen : xs.length = w'.length := by simp [hxs, codesOf]
  have hxslt : ∀ b ∈ xs, b < 4 := by
    intro b hb'
    rw [hxs] at hb'
    rcases List.mem_map.mp (List.mem_reverse.mp hb') with ⟨z, _, rfl⟩
    omega
  have hxlt : encC xs < 4 ^ w'.length := hxslen ▸ encC_lt hxslt
  have hdiv : encC (xs ++ [3 - codeOf a]) / 4 = encC xs := by
    rw [encC_snoc, Nat.add_comm]
    rw [Nat.add_mul_div_right _ _ (by norm_num : (0:Nat) < 4),
      Nat.div_eq_of_lt (by omega : 3 - codeOf a < 4)]
    omega
  rw [show w'.length + 1 - 1 = w'.length from rfl, shiftRight_two, hdiv,
    complementCode_eq hb4, lor_shiftLeft_high w'.length hxlt (3 - b), encC_cons, hxslen]

/-! ### Window lemmas -/

theorem windows_short {k : Nat} {l : List Nat} (h : l.length < k) : windows k l = [] := by
  induction l with
  | nil => rfl
  | cons c rest ih =>
    have hlen : ((c :: rest).take k).length = (c :: rest).length := by
      rw [List.length_take]
      omega
    have hne : ((c :: rest).take k).length ≠ k := by omega
    unfold windows headWindow?
    simp only [hne, false_and, if_neg, reduceCtorEq]
    exact ih (by simp at h ⊢; omega)

theorem headWindow?_eq_none_of_invalid {k : Nat} {l : List Nat} {c : Nat}
    (hc : base2int c = none) (hmem : c ∈ l.take k) : headWindow? k l = none := by
  unfold headWindow?
  simp only [ite_eq_right_iff, reduceCtorEq]
  intro hcond
  exfalso
  have := (List.all_eq_true.mp hcond.2) c hmem
  simp [validByte, hc] at this

theorem mem_take_append {k : Nat} {v : List Nat} (hv : v.length < k) (c : Nat)
    (rest : List Nat) : c ∈ (v ++ c :: rest).take k := by
  rw [List.take_append_eq_append_take]
  refine List.mem_append_right _ ?_
  have hm : k - v.length = (k - v.length - 1) + 1 := by omega
  rw [hm, List.take_succ_cons]
  exact List.mem_cons_self _ _

theorem windows_cons (k c : Nat) (rest : List Nat) :
    windows k (c :: rest) =
      match headWindow? k (c :: rest) with
      | some w => w :: windows k rest
      | none => windows k rest := rfl

theorem windows_invalid {k : Nat} {v : List Nat} (hv : v.length < k) {c : Nat}
    (hc : base2int c = none) (rest : List Nat) :
    windows k (v ++ c :: rest) = windows k rest := by
  induction v with
  | nil =>
    have hmem : c ∈ (c :: rest).take k := by
      simpa using mem_take_append hv c rest
    have hnone : headWindow? k (c :: rest) = none :=
      headWindow?_eq_none_of_invalid hc hmem
    rw [List.nil_append, windows_cons, hnone]
  | cons a v' ih =>
    have hv' : v'.length < k := by simp at hv; omega
    have hmem : c ∈ ((a :: v') ++ c :: rest).take k := mem_take_append hv c rest
    have hnone : headWindow? k (a :: (v' ++ c :: rest)) = none :=
      headWindow?_eq_none_of_invalid hc hmem
    show windows k (a :: (v' ++ c :: rest)) = windows k rest
    rw [windows_cons, hnone]
    exact ih hv'

theorem windows_cons_full {k : Nat} {w : List Nat} (hk : 1 ≤ k) (hlen : w.length = k)
    (hval : w.all validByte = true) (rest : List Nat) :
    windows k (w ++ rest) = w :: windows k (w.drop 1 ++ rest) := by
  rcases w with _ | ⟨a, w'⟩
  · simp at hlen
    omega
  · have htake : (a :: (w' ++ rest)).take k = a :: w' := by
      rw [show a :: (w' ++ rest) = (a :: w') ++ rest from rfl,
        List.take_append_eq_append_take, hlen, List.take_of_length_le (le_of_eq hlen)]
      simp [Nat.sub_self, hlen]
    have hsome : headWindow? k (a :: (w' ++ rest)) = some (a :: w') := by
      unfold headWindow?
      simp only [htake]
      rw [if_pos ⟨hlen, hval⟩]
    show windows k (a :: (w' ++ rest)) = (a :: w') :: windows k ((a :: w').drop 1 ++ rest)
    rw [windows_cons, hsome]
    rfl

theorem windowCands_short {k s t : Nat} {canonical : Bool} {l : List Nat}
    (h : l.length < k) : windowCands k s t canonical l = [] := by
  unfold windowCands
  rw [windows_short h]
  rfl

theorem windowCands_invalid {k s t : Nat} {canonical : Bool} {v : List Nat}
    (hv : v.length < k) {c : Nat} (hc : base2int c = none) (rest : List Nat) :
    windowCands k s t canonical (v ++ c :: rest) = windowCands k s t canonical rest := by
  unfold windowCands
  rw [windows_invalid hv hc]

theorem windowCands_full {k s t : Nat} {canonical : Bool} {w : List Nat} (hk : 1 ≤ k)
    (hlen : w.length = k) (hval : w.all validByte = true) (rest : List Nat) :
    windowCands k s t canonical (w ++ rest) =
      if syncOf k s t canonical w then
        candOf k canonical w :: windowCands k s t canonical (w.drop 1 ++ rest)
      else windowCands k s t canonical (w.drop 1 ++ rest) := by
  unfold windowCands
  rw [windows_cons_full hk hlen hval, List.filter_cons]
  by_cases h : syncOf k s t canonical w
  · simp [h]
  · simp [h]

theorem dedupFrom_cons (last : Option Nat) (x : Nat) (l : List Nat) :
    dedupFrom last (x :: l) =
      if last = some x then dedupFrom last l else x :: dedupFrom (some x) l := rfl

/-- The iterator equals its functional specification: enumerate all valid
windows, canonicalize, filter syncmers, collapse consecutive duplicates.
The conjunction carries the two control states through the induction. -/
theorem kmerEmits_characterization (k s t : Nat) (canonical : Bool) (hk : 1 ≤ k) :
    ∀ (rest : List Nat) (last : Option Nat),
      (∀ v : List Nat, v.length < k → v.all validByte = true →
        kmerEmits k s t canonical (IterMode.scan (encB v) v.length) last rest =
          dedupFrom last (windowCands k s t canonical (v ++ rest))) ∧
      (∀ w : List Nat, w.length = k → w.all validByte = true →
        kmerEmits k s t canonical
            (IterMode.slide (encB w) (reverseCompliment k (encB w))) last rest =
          dedupFrom last (windowCands k s t canonical (w.drop 1 ++ rest))) := by
  intro rest
  induction rest with
  | nil =>
    intro last
    constructor
    · intro v hv _
      rw [show kmerEmits k s t canonical (IterMode.scan (encB v) v.length) last [] = []
          from rfl]
      rw [List.append_nil, windowCands_short hv]
      rfl
    · intro w hlen _
      rw [show kmerEmits k s t canonical
          (IterMode.slide (encB w) (reverseCompliment k (encB w))) last [] = [] from rfl]
      rw [List.append_nil, windowCands_short (by simp [hlen]; omega : (w.drop 1).length < k)]
      rfl
  | cons ch rest' ih =>
    intro last
    have step : ∀ (w₂ : List Nat) (last : Option Nat), w₂.length = k →
        w₂.all validByte = true →
        (if currIsSyncmer k s t canonical (encB w₂) (reverseCompliment k (encB w₂)) ∧
            last ≠ some (if canonical then min (encB w₂) (reverseCompliment k (encB w₂))
              else encB w₂) then
          (if canonical then min (encB w₂) (reverseCompliment k (encB w₂)) else encB w₂) ::
            kmerEmits k s t canonical
              (IterMode.slide (encB w₂) (reverseCompliment k (encB w₂)))
              (some (if canonical then min (encB w₂) (reverseCompliment k (encB w₂))
                else encB w₂)) rest'
        else
          kmerEmits k s t canonical
            (IterMode.slide (encB w₂) (reverseCompliment k (encB w₂))) last rest') =
        dedupFrom last (windowCands k s t canonical (w₂ ++ rest')) := by
      intro w₂ last₂ hlen hval
      have hcand : candOf k canonical w₂ =
          (if canonical then min (encB w₂) (reverseCompliment k (encB w₂)) else encB w₂) := rfl
      have hsyncdef : syncOf k s t canonical w₂ =
          currIsSyncmer k s t canonical (encB w₂) (reverseCompliment k (encB w₂)) := rfl
      rw [windowCands_full hk hlen hval, ← hcand]
      by_cases hsync :
          currIsSyncmer k s t canonical (encB w₂) (reverseCompliment k (encB w₂)) = true
      · rw [if_pos (show syncOf k s t canonical w₂ = true from hsync), dedupFrom_cons]
        by_cases hlast : last₂ = some (candOf k canonical w₂)
        · rw [if_pos hlast, if_neg (fun hcon => hcon.2 hlast)]
          exact (ih last₂).2 w₂ hlen hval
        · rw [if_neg hlast, if_pos ⟨hsync, hlast⟩]
          exact congrArg (candOf k canonical w₂ :: ·)
            ((ih (some (candOf k canonical w₂))).2 w₂ hlen hval)
      · rw [if_neg (show ¬(syncOf k s t canonical w₂ = true) from hsync),
          if_neg (fun hcon => hsync hcon.1)]
        exact (ih last₂).2 w₂ hlen hval
    constructor
    · intro v hv hval
      cases hbc : base2int ch with
      | none =>
        simp only [kmerEmits, hbc]
        rw [windowCands_invalid hv hbc]
        exact (ih last).1 [] (by simp; omega) (by simp)
      | some b =>
        have hvalid_ch : validByte ch = true := by simp [validByte, hbc]
        have hw₂val : (v ++ [ch]).all validByte = true := by
          rw [List.all_append]
          simp [hval, hvalid_ch]
        by_cases hpos : v.length + 1 = k
        · have hw₂len : (v ++ [ch]).length = k := by simp; omega
          simp only [kmerEmits, hbc]
          rw [if_pos hpos, scan_update hbc,
            show v ++ ch :: rest' = (v ++ [ch]) ++ rest' by simp]
          exact step (v ++ [ch]) last hw₂len hw₂val
        · simp only [kmerEmits, hbc]
          rw [if_neg hpos, scan_update hbc,
            show v ++ ch :: rest' = (v ++ [ch]) ++ rest' by simp]
          have h1 := (ih last).1 (v ++ [ch]) (by simp; omega) hw₂val
          simpa using h1
    · intro w hlen hval
      rcases w with _ | ⟨a, w'⟩
      · simp at hlen; omega
      cases hbc : base2int ch with
      | none =>
        simp only [kmerEmits, hbc]
        rw [show (a :: w').drop 1 ++ ch :: rest' = w' ++ ch :: rest' from rfl,
          windowCands_invalid (by simp at hlen; omega : w'.length < k) hbc]
        exact (ih last).1 [] (by simp; omega) (by simp)
      | some b =>
        have hk' : k = w'.length + 1 := by simpa using hlen.symm
        subst hk'
        have hvalid_ch : validByte ch = true := by simp [validByte, hbc]
        have hw₂len : (w' ++ [ch]).length = w'.length + 1 := by simp
        have hval' : w'.all validByte = true := by
          rw [List.all_cons, Bool.and_eq_true] at hval
          exact hval.2
        have hw₂val : (w' ++ [ch]).all validByte = true := by
          rw [List.all_append, Bool.and_eq_true]
          exact ⟨hval', by simp [hvalid_ch]⟩
        simp only [kmerEmits, hbc]
        rw [slide_curr_update hbc a w', slide_rc_update hbc a w',
          show (a :: w').drop 1 ++ ch :: rest' = (w' ++ [ch]) ++ rest' by simp]
        exact step (w' ++ [ch]) last hw₂len hw₂val

/-- Top-level form of the characterization. -/
theorem kmerIterEmits_eq_specEmits (seq : List Nat) (k s t : Nat) (canonical : Bool)
    (hk : 1 ≤ k) : kmerIterEmits seq k canonical s t = specEmits k s t canonical seq := by
  have h := (kmerEmits_characterization k s t canonical hk seq none).1 []
    (by simp; omega) (by simp)
  simpa [kmerIterEmits, specEmits, windowCands] using h

/-- The iterator never emits the same value twice in a row, and its first
emission differs from `last_returned`. -/
theorem kmerEmits_adjacent (k s t : Nat) (canonical : Bool) :
    ∀ (rest : List Nat) (mode : IterMode) (last : Option Nat),
      List.Chain' (· ≠ ·) (kmerEmits k s t canonical mode last rest) ∧
      ∀ x : Nat, (kmerEmits k s t canonical mode last rest).head? = some x →
        last ≠ some x := by
  intro rest
  induction rest with
  | nil =>
    intro mode last
    have hnil : kmerEmits k s t canonical mode last [] = [] := by cases mode <;> rfl
    rw [hnil]
    exact ⟨List.chain'_nil, by intro x hx; simp at hx⟩
  | cons c rest' ih =>
    intro mode last
    have step : ∀ curr rc : Nat,
        List.Chain' (· ≠ ·)
          (if currIsSyncmer k s t canonical curr rc ∧
              last ≠ some (if canonical then min curr rc else curr) then
            (if canonical then min curr rc else curr) ::
              kmerEmits k s t canonical (IterMode.slide curr rc)
                (some (if canonical then min curr rc else curr)) rest'
          else kmerEmits k s t canonical (IterMode.slide curr rc) last rest') ∧
        ∀ x : Nat,
          (if currIsSyncmer k s t canonical curr rc ∧
              last ≠ some (if canonical then min curr rc else curr) then
            (if canonical then min curr rc else curr) ::
              kmerEmits k s t canonical (IterMode.slide curr rc)
                (some (if canonical then min curr rc else curr)) rest'
          else kmerEmits k s t canonical (IterMode.slide curr rc) last rest').head? =
            some x → last ≠ some x := by
      intro curr rc
      by_cases hcond : currIsSyncmer k s t canonical curr rc = true ∧
          last ≠ some (if canonical then min curr rc else curr)
      · rw [if_pos hcond]
        obtain ⟨ihc, ihh⟩ := ih (IterMode.slide curr rc)
          (some (if canonical then min curr rc else curr))
        constructor
        · rw [List.chain'_cons']
          exact ⟨fun y hy heq => ihh y hy (congrArg some heq), ihc⟩
        · intro x hx
          simp only [List.head?_cons, Option.some_inj] at hx
          rw [← hx]
          exact hcond.2
      · rw [if_neg hcond]
        exact ih (IterMode.slide curr rc) last
    cases mode with
    | scan buffer position =>
      cases hbc : base2int c with
      | none =>
        simp only [kmerEmits, hbc]
        exact ih (IterMode.scan 0 0) last
      | some b =>
        simp only [kmerEmits, hbc]
        by_cases hpos : position + 1 = k
        · rw [if_pos hpos]
          exact step ((buffer <<< 2) ||| b) (reverseCompliment k ((buffer <<< 2) ||| b))
        · rw [if_neg hpos]
          exact ih (IterMode.scan ((buffer <<< 2) ||| b) (position + 1)) last
    | slide currKmer currRevCompKmer =>
      cases hbc : base2int c with
      | none =>
        simp only [kmerEmits, hbc]
        exact ih (IterMode.scan 0 0) last
      | some b =>
        simp only [kmerEmits, hbc]
        exact step (((currKmer <<< 2) ||| b) &&& (4 ^ k - 1))
          ((currRevCompKmer >>> 2) ||| (complementCode b <<< ((k - 1) * 2)))

/-! ### Reverse complement of a byte sequence (spec side, for claim C4)

The spec's `reverse_complement(seq)` reverses the base order and complements
each base (A↔T, C↔G, case preserved); other characters are left in place and
stay invalid. -/

/-- Complement of one byte: A↔T, C↔G (also lowercase); other bytes unchanged. -/
def complChar (c : Nat) : Nat :=
  if c = 65 then 84
  else if c = 97 then 116
  else if c = 67 then 71
  else if c = 99 then 103
  else if c = 71 then 67
  else if c = 103 then 99
  else if c = 84 then 65
  else if c = 116 then 97
  else c

/-- Reverse complement of a byte sequence. -/
def revComp (seq : List Nat) : List Nat := (seq.map complChar).reverse

theorem base2int_complChar (c : Nat) :
    base2int (complChar c) = (base2int c).map (fun b => 3 - b) := by
  unfold complChar
  split_ifs with h1 h2 h3 h4 h5 h6 h7 h8
  · subst h1; decide
  · subst h2; decide
  · subst h3; decide
  · subst h4; decide
  · subst h5; decide
  · subst h6; decide
  · subst h7; decide
  · subst h8; decide
  · unfold base2int
    split_ifs <;> simp_all

theorem validByte_complChar (c : Nat) : validByte (complChar c) = validByte c := by
  simp [validByte, base2int_complChar]

theorem complChar_complChar (c : Nat) : complChar (complChar c) = c := by
  by_cases h1 : c = 65
  · subst h1; decide
  by_cases h2 : c = 97
  · subst h2; decide
  by_cases h3 : c = 67
  · subst h3; decide
  by_cases h4 : c = 99
  · subst h4; decide
  by_cases h5 : c = 71
  · subst h5; decide
  by_cases h6 : c = 103
  · subst h6; decide
  by_cases h7 : c = 84
  · subst h7; decide
  by_cases h8 : c = 116
  · subst h8; decide
  have hc : complChar c = c := by
    unfold complChar
    rw [if_neg h1, if_neg h2, if_neg h3, if_neg h4, if_neg h5, if_neg h6, if_neg h7,
      if_neg h8]
  rw [hc, hc]

theorem revComp_revComp (w : List Nat) : revComp (revComp w) = w := by
  unfold revComp
  rw [List.map_reverse, List.reverse_reverse, List.map_map]
  have : (w.map (complChar ∘ complChar)) = w.map id :=
    List.map_congr_left (fun c _ => complChar_complChar c)
  rw [this, List.map_id]

theorem revComp_length (w : List Nat) : (revComp w).length = w.length := by
  simp [revComp]

theorem revComp_all_valid (w : List Nat) :
    (revComp w).all validByte = w.all validByte := by
  unfold revComp
  rw [List.all_reverse, List.all_map]
  congr 1
  funext c
  exact validByte_complChar c

theorem codesOf_revComp {w : List Nat} (hval : w.all validByte = true) :
    codesOf (revComp w) = rcCodes (codesOf w) := by
  unfold revComp codesOf rcCodes
  rw [List.map_reverse]
  congr 1
  rw [List.map_map, List.map_map]
  apply List.map_congr_left
  intro c hc
  have hv : (base2int c).isSome := by
    simpa [validByte] using List.all_eq_true.mp hval c hc
  rcases Option.isSome_iff_exists.mp hv with ⟨b, hb⟩
  simp [Function.comp, codeOf, base2int_complChar, hb]

theorem encB_revComp {w : List Nat} (hval : w.all validByte = true) :
    encB (revComp w) = reverseCompliment w.length (encB w) := by
  rw [encB, codesOf_revComp hval]
  have h := reverseCompliment_encC (codesOf_lt w)
  rw [show (codesOf w).length = w.length by simp [codesOf]] at h
  rw [← h]
  rfl

theorem reverseCompliment_encB_revComp {w : List Nat} (hval : w.all validByte = true) :
    reverseCompliment w.length (encB (revComp w)) = encB w := by
  have hval' : (revComp w).all validByte = true := by rw [revComp_all_valid]; exact hval
  have h1 := encB_revComp hval'
  rw [revComp_revComp, revComp_length] at h1
  exact h1.symm

/-! ### Windows of the reverse complement -/

/-- The last k-length window of a list, when complete and fully valid. -/
def tailWindow? (k : Nat) (l : List Nat) : Option (List Nat) :=
  headWindow? k (l.drop (l.length - k))

theorem headWindow?_short {k : Nat} {l : List Nat} (h : l.length < k) :
    headWindow? k l = none := by
  unfold headWindow?
  have : (l.take k).length ≠ k := by
    rw [List.length_take]
    omega
  simp only [ite_eq_right_iff, reduceCtorEq]
  intro hcond
  exact absurd hcond.1 this

theorem headWindow?_append_of_le {k : Nat} {l₁ : List Nat} (h : k ≤ l₁.length)
    (l₂ : List Nat) : headWindow? k (l₁ ++ l₂) = headWindow? k l₁ := by
  unfold headWindow?
  rw [List.take_append_of_le_length h]

theorem headWindow?_eq_some {k : Nat} {l : List Nat} {w : List Nat}
    (h : headWindow? k l = some w) : w.length = k ∧ w.all validByte = true := by
  unfold headWindow? at h
  split_ifs at h with hc
  cases h
  exact hc

theorem windows_snoc (k : Nat) (l : List Nat) (c : Nat) :
    windows k (l ++ [c]) = windows k l ++ (tailWindow? k (l ++ [c])).toList := by
  induction l with
  | nil =>
    have h2 : tailWindow? k [c] = headWindow? k [c] := by
      unfold tailWindow?
      rcases Nat.eq_zero_or_pos k with hk | hk
      · subst hk
        rfl
      · rw [show ([c] : List Nat).length - k = 0 by simp; omega, List.drop_zero]
    rw [List.nil_append, h2, windows_cons]
    cases headWindow? k [c] <;> rfl
  | cons a l' ih =>
    by_cases hk : k ≤ l'.length + 1
    · have hhw : headWindow? k (a :: (l' ++ [c])) = headWindow? k (a :: l') := by
        rw [show a :: (l' ++ [c]) = (a :: l') ++ [c] from rfl]
        exact headWindow?_append_of_le (by simpa using hk) [c]
      have htw : tailWindow? k ((a :: l') ++ [c]) = tailWindow? k (l' ++ [c]) := by
        unfold tailWindow?
        rw [show ((a :: l') ++ [c]).length - k = ((l' ++ [c]).length - k) + 1 by
          simp; omega]
        rfl
      show windows k (a :: (l' ++ [c])) = windows k (a :: l') ++ _
      rw [windows_cons, hhw, ih, htw]
      rw [windows_cons]
      cases headWindow? k (a :: l') <;> rfl
    · have hlt : l'.length + 1 < k := by omega
      have hwin1 : windows k (a :: l') = [] := windows_short (by simp; omega)
      have hwin2 : windows k (l' ++ [c]) = [] := windows_short (by simp; omega)
      have htw : tailWindow? k ((a :: l') ++ [c]) = headWindow? k (a :: (l' ++ [c])) := by
        unfold tailWindow?
        rw [show ((a :: l') ++ [c]).length - k = 0 by simp; omega, List.drop_zero]
        rfl
      show windows k (a :: (l' ++ [c])) = windows k (a :: l') ++ _
      rw [windows_cons, hwin1, hwin2, htw]
      cases headWindow? k (a :: (l' ++ [c])) <;> rfl

theorem tailWindow?_revComp (k : Nat) (m : List Nat) :
    tailWindow? k (revComp m) = (headWindow? k m).map revComp := by
  by_cases hkn : k ≤ m.length
  · have hj : m.length - (m.length - k) = k := by omega
    have hx : (revComp m).drop (m.length - k) = revComp (m.take k) := by
      unfold revComp
      rw [List.drop_reverse, List.length_map, hj, ← List.map_take]
    unfold tailWindow?
    rw [revComp_length, hx]
    have htlen : (m.take k).length = k := by rw [List.length_take]; omega
    have hrlen : (revComp (m.take k)).length = k := by rw [revComp_length, htlen]
    unfold headWindow?
    rw [List.take_of_length_le (le_of_eq hrlen)]
    by_cases hv : (m.take k).all validByte = true
    · rw [if_pos ⟨hrlen, by rw [revComp_all_valid]; exact hv⟩, if_pos ⟨htlen, hv⟩]
      rfl
    · rw [if_neg (fun hcon => hv (by rw [← revComp_all_valid]; exact hcon.2)),
        if_neg (fun hcon => hv hcon.2)]
      rfl
  · unfold tailWindow?
    rw [revComp_length, show m.length - k = 0 by omega, List.drop_zero,
      headWindow?_short (by rw [revComp_length]; omega),
      headWindow?_short (by omega : m.length < k)]
    rfl

theorem windows_revComp (k : Nat) (seq : List Nat) :
    windows k (revComp seq) = ((windows k seq).map revComp).reverse := by
  induction seq with
  | nil => rfl
  | cons a l ih =>
    have hstep : revComp (a :: l) = revComp l ++ [complChar a] := by
      unfold revComp
      simp
    rw [hstep, windows_snoc, ih, ← hstep, tailWindow?_revComp k (a :: l), windows_cons]
    cases headWindow? k (a :: l) <;> simp

theorem windows_mem {k : Nat} {l w : List Nat} (h : w ∈ windows k l) :
    w.length = k ∧ w.all validByte = true := by
  induction l with
  | nil => simp [windows] at h
  | cons c rest ih =>
    rw [windows_cons] at h
    cases hhw : headWindow? k (c :: rest) with
    | some w₀ =>
      rw [hhw] at h
      rcases List.mem_cons.mp h with rfl | h'
      · exact headWindow?_eq_some hhw
      · exact ih h'
    | none =>
      rw [hhw] at h
      exact ih h

theorem currIsSyncmer_swap (k s t x y : Nat) :
    currIsSyncmer k s t true x y = currIsSyncmer k s t true y x := by
  unfold currIsSyncmer
  simp [min_comm]

theorem candOf_revComp {k : Nat} {w : List Nat} (hlen : w.length = k)
    (hval : w.all validByte = true) :
    candOf k true (revComp w) = candOf k true w := by
  subst hlen
  show min (encB (revComp w)) (reverseCompliment w.length (encB (revComp w))) =
    min (encB w) (reverseCompliment w.length (encB w))
  rw [reverseCompliment_encB_revComp hval, encB_revComp hval, min_comm]

theorem syncOf_revComp {k s t : Nat} {w : List Nat} (hlen : w.length = k)
    (hval : w.all validByte = true) :
    syncOf k s t true (revComp w) = syncOf k s t true w := by
  subst hlen
  show currIsSyncmer w.length s t true (encB (revComp w))
      (reverseCompliment w.length (encB (revComp w))) = _
  rw [reverseCompliment_encB_revComp hval, encB_revComp hval, currIsSyncmer_swap]
  rfl

theorem windowCands_revComp (k s t : Nat) (seq : List Nat) :
    windowCands k s t true (revComp seq) = (windowCands k s t true seq).reverse := by
  have hsync : ∀ w ∈ windows k seq,
      (syncOf k s t true ∘ revComp) w = syncOf k s t true w := fun w hw =>
    syncOf_revComp (windows_mem hw).1 (windows_mem hw).2
  have hcand : ∀ w ∈ windows k seq,
      (candOf k true ∘ revComp) w = candOf k true w := fun w hw =>
    candOf_revComp (windows_mem hw).1 (windows_mem hw).2
  unfold windowCands
  rw [windows_revComp, List.filter_reverse, List.filter_map, List.map_reverse,
    List.map_map]
  congr 1
  rw [List.filter_congr hsync]
  exact List.map_congr_left (fun w hw => hcand w (List.mem_of_mem_filter hw))

/-! ### Consecutive-duplicate collapse versus reversal -/

/-- The `last_returned` state after processing a list of emissions. -/
def stateAfter (last : Option Nat) : List Nat → Option Nat
  | [] => last
  | x :: xs => stateAfter (some x) xs

theorem stateAfter_append (last : Option Nat) (xs ys : List Nat) :
    stateAfter last (xs ++ ys) = stateAfter (stateAfter last xs) ys := by
  induction xs generalizing last with
  | nil => rfl
  | cons x xs ih => exact ih (some x)

theorem dedupFrom_append (last : Option Nat) (xs ys : List Nat) :
    dedupFrom last (xs ++ ys) = dedupFrom last xs ++ dedupFrom (stateAfter last xs) ys := by
  induction xs generalizing last with
  | nil => rfl
  | cons x xs ih =>
    show dedupFrom last (x :: (xs ++ ys)) = _
    rw [dedupFrom_cons, dedupFrom_cons]
    by_cases h : last = some x
    · subst h
      rw [if_pos rfl, if_pos rfl, ih]
      rfl
    · rw [if_neg h, if_neg h, ih (some x)]
      rfl

/-- Collapse keeping the last element of each run of equal values, dropping a
trailing run equal to `last` (mirror image of `dedupFrom`). -/
def keepLast : List Nat → Option Nat → List Nat
  | [], _ => []
  | [x], last => if some x = last then [] else [x]
  | x :: y :: t, last => if x = y then keepLast (y :: t) last else x :: keepLast (y :: t) last

theorem dedupFrom_reverse (l : List Nat) :
    ∀ last : Option Nat, dedupFrom last l.reverse = (keepLast l last).reverse := by
  induction l with
  | nil => intro last; rfl
  | cons x xs ih =>
    intro last
    rw [List.reverse_cons, dedupFrom_append, ih last]
    cases xs with
    | nil =>
      show ([] : List Nat) ++ dedupFrom last [x] = (keepLast [x] last).reverse
      by_cases h : last = some x
      · simp [dedupFrom, keepLast, h]
      · simp only [List.nil_append, dedupFrom, keepLast]
        rw [if_neg h, if_neg (fun hxl => h hxl.symm)]
        rfl
    | cons y t =>
      have hstate : stateAfter last (y :: t).reverse = some y := by
        rw [show (y :: t).reverse = t.reverse ++ [y] by simp, stateAfter_append]
        rfl
      rw [hstate]
      by_cases hxy : x = y
      · subst hxy
        have hD : dedupFrom (some x) [x] = [] := by simp [dedupFrom]
        have hK : keepLast (x :: x :: t) last = keepLast (x :: t) last := by
          simp [keepLast]
        rw [hD, hK, List.append_nil]
      · have hD : dedupFrom (some y) [x] = [x] := by
          simp [dedupFrom]
          exact fun hyx => absurd hyx.symm hxy
        have hK : keepLast (x :: y :: t) last = x :: keepLast (y :: t) last := by
          simp [keepLast, hxy]
        rw [hD, hK, List.reverse_cons]

theorem keepLast_perm (l : List Nat) : (keepLast l none).Perm (dedupFrom none l) := by
  induction l with
  | nil => exact List.Perm.refl _
  | cons x xs ih =>
    cases xs with
    | nil =>
      simp [keepLast, dedupFrom]
    | cons y t =>
      by_cases hxy : x = y
      · subst hxy
        have h1 : keepLast (x :: x :: t) none = keepLast (x :: t) none := by
          simp [keepLast]
        have h2 : dedupFrom none (x :: x :: t) = dedupFrom none (x :: t) := by
          simp [dedupFrom]
        rw [h1, h2]
        exact ih
      · have h1 : keepLast (x :: y :: t) none = x :: keepLast (y :: t) none := by
          simp [keepLast, hxy]
        have h2 : dedupFrom none (x :: y :: t) = x :: dedupFrom none (y :: t) := by
          simp [dedupFrom, hxy]
        rw [h1, h2]
        exact ih.cons x

/-- Reverse-complement symmetry at the level of the functional spec. -/
theorem specEmits_revComp_perm (k s t : Nat) (seq : List Nat) :
    (specEmits k s t true (revComp seq)).Perm (specEmits k s t true seq) := by
  unfold specEmits
  rw [windowCands_revComp, dedupFrom_reverse]
  exact (List.reverse_perm _).trans (keepLast_perm _)

/-! ## RLE codec (src/rle.rs is not in the source drop; modelled from the spec)

Modelled from the spec: the RLE module (`NaiveRunLengthEncoding`,
`RunLengthEncoding`, `Block`, `MAX_RUN`, `MAX_UNCOMPRESSED_BITS`) is declared
by database.rs and tests/rle.rs but its definition is absent from src/.  Per
the spec, a block is `Zeros(n)` / `Ones(n)` with `n ∈ [1, MAX_RUN]`
(`MAX_RUN = 2^14`) or `Uncompressed(bits)` covering exactly
`MAX_UNCOMPRESSED_BITS = 14` positions; `Block::from_u16`/`to_u16` pack the
2-bit tag with the 14-bit payload and round-trip, so we work directly with
decoded blocks. -/

def MAX_RUN : Nat := 16384

def MAX_UNCOMPRESSED_BITS : Nat := 14

inductive Block : Type
  | zeros (count : Nat)
  | ones (count : Nat)
  | uncompressed (bits : Nat)
deriving DecidableEq

/-- Number of positions a block covers. -/
def blockLen : Block → Nat
  | Block.zeros n => n
  | Block.ones n => n
  | Block.uncompressed _ => MAX_UNCOMPRESSED_BITS

/-- Modelled from the spec: the positions yielded by one typed block
iterator of `RunLengthEncoding::block_iters` starting at absolute position
`start` — the range `[start, start+n)` for `Ones(n)`, the set positions of
the 14-bit payload for `Uncompressed(bits)`, nothing for `Zeros(n)`. -/
def blockPositions (start : Nat) : Block → List Nat
  | Block.zeros _ => []
  | Block.ones n => (List.range n).map (start + ·)
  | Block.uncompressed bits =>
    ((List.range MAX_UNCOMPRESSED_BITS).filter (fun i => bits.testBit i)).map (start + ·)

/-- All set positions of a block list, scanning with an absolute cursor. -/
def rleDecodeFrom : Nat → List Block → List Nat
  | _, [] => []
  | start, b :: rest => blockPositions start b ++ rleDecodeFrom (start + blockLen b) rest

/-- Modelled from the spec: `RunLengthEncoding::collect_indices`. -/
def collectIndices (blocks : List Block) : List Nat := rleDecodeFrom 0 blocks

/-- Modelled from the spec: a gap of `gap` cleared positions becomes
`ceil(gap / MAX_RUN)` Zeros blocks, the last one smaller if needed. -/
def zerosBlocks (gap : Nat) : List Block :=
  if gap = 0 then []
  else if gap ≤ MAX_RUN then [Block.zeros gap]
  else Block.zeros MAX_RUN :: zerosBlocks (gap - MAX_RUN)
termination_by gap
decreasing_by simp [MAX_RUN] at *; omega

/-- Modelled from the spec: a run of `run` set positions becomes Ones blocks
split at `MAX_RUN`. -/
def onesBlocks (run : Nat) : List Block :=
  if run = 0 then []
  else if run ≤ MAX_RUN then [Block.ones run]
  else Block.ones MAX_RUN :: onesBlocks (run - MAX_RUN)
termination_by run
decreasing_by simp [MAX_RUN] at *; omega

/-- Length of the run of consecutive positions continuing `prev`. -/
def takeRunLength : Nat → List Nat → Nat
  | _, [] => 0
  | prev, x :: xs => if x = prev + 1 then 1 + takeRunLength x xs else 0

/-- The 14-bit payload with a set bit for every position of `win` relative
to the window start `p` (bit 0 = first position of the window). -/
def uncompressedBits (p : Nat) (win : List Nat) : Nat :=
  win.foldr (fun q acc => acc ||| (1 <<< (q - p))) 0

/-- Modelled from the spec: `NaiveRunLengthEncoding::to_rle`, the single
greedy pass over the sorted pushed positions keeping a cursor at the next
uncovered position.  A maximal run of `r ≥ 2` consecutive set positions
becomes Ones blocks; an isolated set position opens a 14-position
Uncompressed window that absorbs every pushed position falling inside it;
gaps become Zeros blocks. -/
def toRleFrom (cursor : Nat) : List Nat → List Block
  | [] => []
  | p :: rest =>
    if 2 ≤ 1 + takeRunLength p rest then
      zerosBlocks (p - cursor) ++ onesBlocks (1 + takeRunLength p rest) ++
        toRleFrom (p + (1 + takeRunLength p rest)) (rest.drop (takeRunLength p rest))
    else
      zerosBlocks (p - cursor) ++
        Block.uncompressed
          (uncompressedBits p (p :: rest.takeWhile (fun q => q < p + MAX_UNCOMPRESSED_BITS))) ::
        toRleFrom (p + MAX_UNCOMPRESSED_BITS)
          (rest.dropWhile (fun q => q < p + MAX_UNCOMPRESSED_BITS))
termination_by l => l.length
decreasing_by
  all_goals simp only [List.length_cons]
  · rw [List.length_drop]
    omega
  · exact Nat.lt_succ_of_le (List.Sublist.length_le (List.dropWhile_sublist _))

/-- Modelled from the spec: `NaiveRunLengthEncoding` accumulates pushed
positions (`push` appends; callers push in ascending order) and `to_rle`
compresses them. -/
def toRle (positions : List Nat) : List Block := toRleFrom 0 positions

/-! ### RLE round trip -/

/-- Number of positions covered by a block list. -/
def totalBlockLen (blocks : List Block) : Nat := (blocks.map blockLen).sum

theorem rleDecodeFrom_append (c : Nat) (bs cs : List Block) :
    rleDecodeFrom c (bs ++ cs) =
      rleDecodeFrom c bs ++ rleDecodeFrom (c + totalBlockLen bs) cs := by
  induction bs generalizing c with
  | nil => simp [rleDecodeFrom, totalBlockLen]
  | cons b bs ih =>
    show blockPositions c b ++ rleDecodeFrom (c + blockLen b) (bs ++ cs) = _
    rw [ih, ← List.append_assoc]
    have harg : c + blockLen b + totalBlockLen bs = c + totalBlockLen (b :: bs) := by
      simp [totalBlockLen]
      omega
    rw [harg]
    rfl

theorem totalBlockLen_zerosBlocks (g : Nat) : totalBlockLen (zerosBlocks g) = g := by
  induction g using Nat.strong_induction_on with
  | _ g ih =>
    have hM : 0 < MAX_RUN := by norm_num [MAX_RUN]
    unfold zerosBlocks
    split_ifs with h1 h2
    · simp [totalBlockLen, h1]
    · simp [totalBlockLen, blockLen]
    · rw [totalBlockLen, List.map_cons, List.sum_cons, ← totalBlockLen,
        ih (g - MAX_RUN) (by omega)]
      simp [blockLen]
      omega

theorem rleDecodeFrom_zerosBlocks (c g : Nat) : rleDecodeFrom c (zerosBlocks g) = [] := by
  induction g using Nat.strong_induction_on generalizing c with
  | _ g ih =>
    have hM : 0 < MAX_RUN := by norm_num [MAX_RUN]
    unfold zerosBlocks
    split_ifs with h1 h2
    · rfl
    · rfl
    · rw [rleDecodeFrom, ih (g - MAX_RUN) (by omega), blockPositions]
      rfl

theorem totalBlockLen_onesBlocks (r : Nat) : totalBlockLen (onesBlocks r) = r := by
  induction r using Nat.strong_induction_on with
  | _ r ih =>
    have hM : 0 < MAX_RUN := by norm_num [MAX_RUN]
    unfold onesBlocks
    split_ifs with h1 h2
    · simp [totalBlockLen, h1]
    · simp [totalBlockLen, blockLen]
    · rw [totalBlockLen, List.map_cons, List.sum_cons, ← totalBlockLen,
        ih (r - MAX_RUN) (by omega)]
      simp [blockLen]
      omega

theorem rleDecodeFrom_onesBlocks (p r : Nat) :
    rleDecodeFrom p (onesBlocks r) = (List.range r).map (p + ·) := by
  induction r using Nat.strong_induction_on generalizing p with
  | _ r ih =>
    have hM : 0 < MAX_RUN := by norm_num [MAX_RUN]
    unfold onesBlocks
    split_ifs with h1 h2
    · rw [h1]
      rfl
    · rw [rleDecodeFrom, rleDecodeFrom, blockPositions]
      simp
    · rw [rleDecodeFrom, ih (r - MAX_RUN) (by omega), blockPositions, blockLen]
      have htail : (List.range (r - MAX_RUN)).map (fun x => p + MAX_RUN + x) =
          ((List.range (r - MAX_RUN)).map (fun i => MAX_RUN + i)).map (fun x => p + x) := by
        rw [List.map_map]
        apply List.map_congr_left
        intro i _
        simp [Function.comp]
        omega
      rw [htail, ← List.map_append]
      conv_rhs => rw [show r = MAX_RUN + (r - MAX_RUN) by omega, List.range_add]

theorem takeRunLength_spec {p : Nat} {rest : List Nat}
    (hs : List.Sorted (· < ·) (p :: rest)) :
    rest.take (takeRunLength p rest) =
      (List.range (takeRunLength p rest)).map (fun i => p + 1 + i) ∧
    ∀ q ∈ rest.drop (takeRunLength p rest), p + takeRunLength p rest + 1 < q := by
  induction rest generalizing p with
  | nil => exact ⟨rfl, by simp⟩
  | cons x xs ih =>
    rw [List.sorted_cons] at hs
    by_cases hx : x = p + 1
    · rw [takeRunLength, if_pos hx]
      obtain ⟨h1, h2⟩ := ih hs.2
      constructor
      · rw [Nat.add_comm 1 (takeRunLength x xs), List.take_succ_cons, h1,
          List.range_succ_eq_map, List.map_cons, List.map_map]
        rw [hx]
        congr 1
        apply List.map_congr_left
        intro i _
        simp [Function.comp]
        omega
      · intro q hq
        rw [Nat.add_comm 1 (takeRunLength x xs), List.drop_succ_cons] at hq
        have := h2 q hq
        omega
    · rw [takeRunLength, if_neg hx]
      refine ⟨rfl, fun q hq => ?_⟩
      simp only [List.drop_zero] at hq
      rcases List.mem_cons.mp hq with rfl | hq'
      · have := hs.1 q (List.mem_cons_self _ _)
        omega
      · have hxq : x < q := (List.sorted_cons.mp hs.2).1 q hq'
        have := hs.1 x (List.mem_cons_self _ _)
        omega

theorem uncompressedBits_testBit (p : Nat) (win : List Nat) (hlo : ∀ q ∈ win, p ≤ q) :
    ∀ i : Nat, (uncompressedBits p win).testBit i = true ↔ (p + i) ∈ win := by
  induction win with
  | nil => intro i; simp [uncompressedBits]
  | cons q ws ih =>
    intro i
    have hq : p ≤ q := hlo q (List.mem_cons_self _ _)
    have ihw := ih (fun r hr => hlo r (List.mem_cons_of_mem _ hr)) i
    show ((uncompressedBits p ws) ||| (1 <<< (q - p))).testBit i = true ↔ _
    rw [Nat.testBit_or, show (1 : Nat) <<< (q - p) = 2 ^ (q - p) by
      rw [Nat.shiftLeft_eq, Nat.one_mul], Nat.testBit_two_pow]
    simp only [Bool.or_eq_true, decide_eq_true_eq, List.mem_cons, ihw]
    constructor
    · rintro (h | h)
      · exact Or.inr h
      · exact Or.inl (by omega)
    · rintro (h | h)
      · exact Or.inr (by omega)
      · exact Or.inl h

theorem uncompressed_window_decode {p : Nat} {win : List Nat}
    (hsort : List.Sorted (· < ·) win) (hlo : ∀ q ∈ win, p ≤ q)
    (hhi : ∀ q ∈ win, q < p + MAX_UNCOMPRESSED_BITS) :
    blockPositions p (Block.uncompressed (uncompressedBits p win)) = win := by
  have hbit := uncompressedBits_testBit p win hlo
  have hLsort : List.Sorted (· < ·)
      (((List.range MAX_UNCOMPRESSED_BITS).filter
        (fun i => (uncompressedBits p win).testBit i)).map (p + ·)) := by
    rw [List.Sorted, List.pairwise_map]
    exact ((List.sorted_lt_range _).sublist (List.filter_sublist _)).imp
      (fun h => by omega)
  have hmem : ∀ x : Nat,
      x ∈ ((List.range MAX_UNCOMPRESSED_BITS).filter
        (fun i => (uncompressedBits p win).testBit i)).map (p + ·) ↔ x ∈ win := by
    intro x
    rw [List.mem_map]
    constructor
    · rintro ⟨i, hi, rfl⟩
      have := List.of_mem_filter hi
      exact (hbit i).mp (by simpa using this)
    · intro hx
      refine ⟨x - p, List.mem_filter.mpr ⟨?_, ?_⟩, ?_⟩
      · rw [List.mem_range]
        have := hhi x hx
        have := hlo x hx
        omega
      · have hpx : p + (x - p) = x := by have := hlo x hx; omega
        show (uncompressedBits p win).testBit (x - p) = true
        rw [hbit (x - p), hpx]
        exact hx
      · have := hlo x hx
        omega
  show ((List.range MAX_UNCOMPRESSED_BITS).filter _).map (p + ·) = win
  exact List.eq_of_perm_of_sorted
    ((List.perm_ext_iff_of_nodup (hLsort.nodup) (hsort.nodup)).mpr hmem) hLsort hsort

theorem sorted_dropWhile_ge {c : Nat} {l : List Nat} (hs : List.Sorted (· < ·) l) :
    ∀ q ∈ l.dropWhile (fun x => decide (x < c)), c ≤ q := by
  induction l with
  | nil => simp
  | cons x xs ih =>
    rw [List.dropWhile_cons]
    by_cases hx : x < c
    · rw [if_pos (by simpa using hx)]
      exact ih (List.sorted_cons.mp hs).2
    · rw [if_neg (by simpa using hx)]
      intro q hq
      rcases List.mem_cons.mp hq with rfl | hq'
      · omega
      · have := (List.sorted_cons.mp hs).1 q hq'
        omega

theorem totalBlockLen_append (bs cs : List Block) :
    totalBlockLen (bs ++ cs) = totalBlockLen bs + totalBlockLen cs := by
  simp [totalBlockLen]

theorem toRleFrom_decode_aux (n : Nat) : ∀ (l : List Nat), l.length ≤ n → ∀ (cursor : Nat),
    List.Sorted (· < ·) l → (∀ q ∈ l, cursor ≤ q) →
    rleDecodeFrom cursor (toRleFrom cursor l) = l := by
  induction n with
  | zero =>
    intro l hl cursor _ _
    have : l = [] := List.length_eq_zero.mp (Nat.le_zero.mp hl)
    subst this
    rw [toRleFrom]
    rfl
  | succ n ih =>
    intro l hl cursor hs hc
    cases l with
    | nil =>
      rw [toRleFrom]
      rfl
    | cons p rest =>
      have hcp : cursor ≤ p := hc p (List.mem_cons_self _ _)
      have hrest : List.Sorted (· < ·) rest := (List.sorted_cons.mp hs).2
      have hrestlen : rest.length ≤ n := by simp at hl; omega
      obtain ⟨htake, hdrop⟩ := takeRunLength_spec hs
      rw [toRleFrom]
      by_cases h2 : 2 ≤ 1 + takeRunLength p rest
      · rw [if_pos h2, rleDecodeFrom_append, rleDecodeFrom_append, rleDecodeFrom_zerosBlocks,
          totalBlockLen_append, totalBlockLen_zerosBlocks, totalBlockLen_onesBlocks,
          rleDecodeFrom_onesBlocks, show cursor + (p - cursor) = p by omega,
          show cursor + (p - cursor + (1 + takeRunLength p rest)) =
            p + (1 + takeRunLength p rest) by omega]
        have hrem : rleDecodeFrom (p + (1 + takeRunLength p rest))
            (toRleFrom (p + (1 + takeRunLength p rest)) (rest.drop (takeRunLength p rest))) =
            rest.drop (takeRunLength p rest) := by
          apply ih
          · calc (rest.drop (takeRunLength p rest)).length ≤ rest.length :=
                List.Sublist.length_le (List.drop_sublist _ _)
            _ ≤ n := hrestlen
          · exact List.Pairwise.sublist (List.drop_sublist _ _) hrest
          · intro q hq
            have := hdrop q hq
            omega
        rw [hrem]
        have hhead : (List.range (1 + takeRunLength p rest)).map (fun x => p + x) =
            p :: (List.range (takeRunLength p rest)).map (fun i => p + 1 + i) := by
          rw [Nat.add_comm 1 (takeRunLength p rest), List.range_succ_eq_map,
            List.map_cons, List.map_map]
          congr 1
          apply List.map_congr_left
          intro i _
          simp [Function.comp]
          omega
        rw [hhead]
        simp only [List.nil_append, List.cons_append]
        rw [← htake, List.take_append_drop]
      · rw [if_neg h2, rleDecodeFrom_append, rleDecodeFrom_zerosBlocks,
          totalBlockLen_zerosBlocks, show cursor + (p - cursor) = p by omega,
          rleDecodeFrom]
        have hwin : blockPositions p (Block.uncompressed (uncompressedBits p
            (p :: rest.takeWhile (fun q => q < p + MAX_UNCOMPRESSED_BITS)))) =
            p :: rest.takeWhile (fun q => q < p + MAX_UNCOMPRESSED_BITS) := by
          apply uncompressed_window_decode
          · rw [List.sorted_cons]
            refine ⟨fun b hb => (List.sorted_cons.mp hs).1 b
              (List.takeWhile_subset _ hb), ?_⟩
            exact List.Pairwise.sublist (List.takeWhile_sublist _) hrest
          · intro q hq
            rcases List.mem_cons.mp hq with rfl | hq'
            · omega
            · exact Nat.le_of_lt ((List.sorted_cons.mp hs).1 q
                (List.takeWhile_subset _ hq'))
          · intro q hq
            rcases List.mem_cons.mp hq with rfl | hq'
            · have : 0 < MAX_UNCOMPRESSED_BITS := by norm_num [MAX_UNCOMPRESSED_BITS]
              omega
            · have := List.mem_takeWhile_imp hq'
              simpa using this
        have hrem : rleDecodeFrom (p + blockLen (Block.uncompressed (uncompressedBits p
            (p :: rest.takeWhile (fun q => q < p + MAX_UNCOMPRESSED_BITS)))))
            (toRleFrom (p + MAX_UNCOMPRESSED_BITS)
              (rest.dropWhile (fun q => q < p + MAX_UNCOMPRESSED_BITS))) =
            rest.dropWhile (fun q => q < p + MAX_UNCOMPRESSED_BITS) := by
          rw [blockLen]
          apply ih
          · calc (rest.dropWhile (fun q => q < p + MAX_UNCOMPRESSED_BITS)).length ≤
                rest.length := List.Sublist.length_le (List.dropWhile_sublist _)
            _ ≤ n := hrestlen
          · exact List.Pairwise.sublist (List.dropWhile_sublist _) hrest
          · exact sorted_dropWhile_ge hrest
        rw [hwin, hrem]
        show p :: (rest.takeWhile _ ++ rest.dropWhile _) = p :: rest
        rw [List.takeWhile_append_dropWhile]

/-- RLE round trip: decoding the compressed form of an ascending position
list recovers the list. -/
theorem collectIndices_toRle {l : List Nat} (hs : List.Sorted (· < ·) l) :
    collectIndices (toRle l) = l :=
  toRleFrom_decode_aux l.length l (le_refl _) 0 hs (fun q _ => Nat.zero_le q)

/-! ## Lossy compression (`Database::lossy_compression`, src/database.rs) -/

/-- `count_ones` of the (16-bit) uncompressed payload. -/
def popCount (bits : Nat) : Nat :=
  ((List.range 16).filter (fun i => bits.testBit i)).length

/-- `should_compress` from `Database::lossy_compression` (src/database.rs),
verbatim: a guard `run_reduction < 1 → false`, then the per-level rule
(`&&` binds tighter than `||`). -/
def shouldCompress (compressionLevel setBits runReduction : Nat) : Bool :=
  if runReduction < 1 then
    false
  else
    match compressionLevel with
    | 1 => setBits == 1 && runReduction == 2
    | 2 => setBits == 1 || setBits == 2 && runReduction == 2
    | 3 => setBits == 1 || setBits == 2 || setBits ≤ 4 && runReduction == 2
    | _ => false

/-- The block-rewriting loop of `Database::lossy_compression` over the
decoded block list.  `acc` holds `compressed_blocks` in reverse
(`acc.head?` is `compressed_blocks.last()`); the second list is the
peekable block iterator.  The `get_zeros` probes of the previous and next
block are realized by matching the adjacent blocks directly, which makes
the source's `panic!("impossible case")` arms vanish. -/
def lossyGo (compressionLevel : Nat) : List Block → List Block → List Block
  | acc, [] => acc.reverse
  | Block.zeros prevLength :: accTail, Block.uncompressed bits :: Block.zeros nextLength :: rest2 =>
    -- previous and next blocks are both zero runs: try to merge with both
    let totalLength := prevLength + MAX_UNCOMPRESSED_BITS + nextLength
    let blocksSaved := if totalLength ≤ MAX_RUN then 2
      else if totalLength ≤ MAX_RUN * 2 then 1 else 0
    if shouldCompress compressionLevel (popCount bits) blocksSaved then
      if totalLength ≤ MAX_RUN then
        lossyGo compressionLevel
          (Block.zeros (prevLength + (MAX_UNCOMPRESSED_BITS + nextLength)) :: accTail) rest2
      else
        lossyGo compressionLevel
          (Block.zeros (totalLength - MAX_RUN) :: Block.zeros MAX_RUN :: accTail) rest2
    else
      lossyGo compressionLevel
        (Block.uncompressed bits :: Block.zeros prevLength :: accTail)
        (Block.zeros nextLength :: rest2)
  | Block.zeros prevLength :: accTail, Block.uncompressed bits :: rest =>
    -- only the previous block is a zero run: try to merge with the previous
    let blocksSaved := if prevLength + MAX_UNCOMPRESSED_BITS ≤ MAX_RUN then 1 else 0
    if shouldCompress compressionLevel (popCount bits) blocksSaved then
      lossyGo compressionLevel (Block.zeros (prevLength + MAX_UNCOMPRESSED_BITS) :: accTail) rest
    else
      lossyGo compressionLevel
        (Block.uncompressed bits :: Block.zeros prevLength :: accTail) rest
  | acc, Block.uncompressed bits :: Block.zeros nextLength :: rest2 =>
    -- only the next block is a zero run: try to merge with the next
    let blocksSaved := if nextLength + MAX_UNCOMPRESSED_BITS ≤ MAX_RUN then 1 else 0
    if shouldCompress compressionLevel (popCount bits) blocksSaved then
      lossyGo compressionLevel (Block.zeros (MAX_UNCOMPRESSED_BITS + nextLength) :: acc) rest2
    else
      lossyGo compressionLevel (Block.uncompressed bits :: acc) (Block.zeros nextLength :: rest2)
  | acc, Block.uncompressed bits :: rest =>
    -- no zero-run neighbor: no lossy compression possible, push and continue
    lossyGo compressionLevel (Block.uncompressed bits :: acc) rest
  | acc, b :: rest => lossyGo compressionLevel (b :: acc) rest

/-- One RLE rewritten by the lossy pass. -/
def lossyCompressRle (compressionLevel : Nat) (blocks : List Block) : List Block :=
  lossyGo compressionLevel [] blocks

/-- The spec's per-level compression rule exactly as claim C2 words it
(no guard on `run_reduction`). -/
def specCompressRule (compressionLevel setBits runReduction : Nat) : Bool :=
  match compressionLevel with
  | 1 => setBits == 1 && runReduction == 2
  | 2 => setBits == 1 || setBits == 2 && runReduction == 2
  | 3 => setBits == 1 || setBits == 2 || setBits ≤ 4 && runReduction == 2
  | _ => false

/-! ### The lossy pass only drops set positions -/

theorem decode_mid_mono {B1 B2 : List Block} (hlen : totalBlockLen B1 = totalBlockLen B2)
    (hsub : ∀ c' : Nat, (↑(rleDecodeFrom c' B1) : Multiset Nat) ≤ ↑(rleDecodeFrom c' B2))
    (X Y : List Block) (c : Nat) :
    (↑(rleDecodeFrom c ((X ++ B1) ++ Y)) : Multiset Nat) ≤
      ↑(rleDecodeFrom c ((X ++ B2) ++ Y)) := by
  rw [List.append_assoc, List.append_assoc, rleDecodeFrom_append c X (B1 ++ Y),
    rleDecodeFrom_append c X (B2 ++ Y), rleDecodeFrom_append (c + totalBlockLen X) B1 Y,
    rleDecodeFrom_append (c + totalBlockLen X) B2 Y, hlen]
  simp only [← Multiset.coe_add]
  exact add_le_add_left (add_le_add_right (hsub _) _) _

theorem decode_zeros_nil (c n : Nat) :
    (↑(rleDecodeFrom c [Block.zeros n]) : Multiset Nat) = 0 := by
  simp [rleDecodeFrom, blockPositions]

theorem decode_two_zeros_nil (c n m : Nat) :
    (↑(rleDecodeFrom c [Block.zeros n, Block.zeros m]) : Multiset Nat) = 0 := by
  simp [rleDecodeFrom, blockPositions]

theorem decode_merge_both_small (X : List Block) (pl bits nl : Nat) (Y : List Block) (c : Nat) :
    (↑(rleDecodeFrom c
        (X ++ Block.zeros (pl + (MAX_UNCOMPRESSED_BITS + nl)) :: Y)) : Multiset Nat) ≤
      ↑(rleDecodeFrom c
        (X ++ Block.zeros pl :: Block.uncompressed bits :: Block.zeros nl :: Y)) := by
  have h := @decode_mid_mono [Block.zeros (pl + (MAX_UNCOMPRESSED_BITS + nl))]
      [Block.zeros pl, Block.uncompressed bits, Block.zeros nl]
      (by simp [totalBlockLen, blockLen])
      (fun c' => by rw [decode_zeros_nil]; exact zero_le _) X Y c
  simpa using h

theorem totalBlockLen_two_zeros (x y : Nat) :
    totalBlockLen [Block.zeros x, Block.zeros y] = x + y := by
  simp [totalBlockLen, blockLen]

theorem totalBlockLen_zuz (pl bits nl : Nat) :
    totalBlockLen [Block.zeros pl, Block.uncompressed bits, Block.zeros nl] =
      pl + MAX_UNCOMPRESSED_BITS + nl := by
  simp [totalBlockLen, blockLen]
  omega

theorem decode_merge_both_big (X : List Block) (pl bits nl : Nat)
    (h : MAX_RUN < pl + MAX_UNCOMPRESSED_BITS + nl) (Y : List Block) (c : Nat) :
    (↑(rleDecodeFrom c (X ++ Block.zeros MAX_RUN ::
        Block.zeros (pl + MAX_UNCOMPRESSED_BITS + nl - MAX_RUN) :: Y)) : Multiset Nat) ≤
      ↑(rleDecodeFrom c
        (X ++ Block.zeros pl :: Block.uncompressed bits :: Block.zeros nl :: Y)) := by
  have hm := @decode_mid_mono
      [Block.zeros MAX_RUN, Block.zeros (pl + MAX_UNCOMPRESSED_BITS + nl - MAX_RUN)]
      [Block.zeros pl, Block.uncompressed bits, Block.zeros nl]
      (by rw [totalBlockLen_two_zeros, totalBlockLen_zuz]; omega)
      (fun c' => by rw [decode_two_zeros_nil]; exact zero_le _) X Y c
  simpa using hm

theorem decode_merge_prev (X : List Block) (pl bits : Nat) (Y : List Block) (c : Nat) :
    (↑(rleDecodeFrom c (X ++ Block.zeros (pl + MAX_UNCOMPRESSED_BITS) :: Y)) : Multiset Nat) ≤
      ↑(rleDecodeFrom c (X ++ Block.zeros pl :: Block.uncompressed bits :: Y)) := by
  have h := @decode_mid_mono [Block.zeros (pl + MAX_UNCOMPRESSED_BITS)]
      [Block.zeros pl, Block.uncompressed bits]
      (by simp [totalBlockLen, blockLen])
      (fun c' => by rw [decode_zeros_nil]; exact zero_le _) X Y c
  simpa using h

theorem decode_merge_next (X : List Block) (bits nl : Nat) (Y : List Block) (c : Nat) :
    (↑(rleDecodeFrom c (X ++ Block.zeros (MAX_UNCOMPRESSED_BITS + nl) :: Y)) : Multiset Nat) ≤
      ↑(rleDecodeFrom c (X ++ Block.uncompressed bits :: Block.zeros nl :: Y)) := by
  have h := @decode_mid_mono [Block.zeros (MAX_UNCOMPRESSED_BITS + nl)]
      [Block.uncompressed bits, Block.zeros nl]
      (by simp [totalBlockLen, blockLen])
      (fun c' => by rw [decode_zeros_nil]; exact zero_le _) X Y c
  simpa using h

theorem lossyGo_decode_le (level : Nat) : ∀ (n : Nat) (rest acc : List Block),
    rest.length ≤ n → ∀ c : Nat,
    (↑(rleDecodeFrom c (lossyGo level acc rest)) : Multiset Nat) ≤
      ↑(rleDecodeFrom c (acc.reverse ++ rest)) := by
  intro n
  induction n with
  | zero =>
    intro rest acc hlen c
    have : rest = [] := List.length_eq_zero.mp (Nat.le_zero.mp hlen)
    subst this
    rw [lossyGo, List.append_nil]
  | succ n ih =>
    intro rest acc hlen c
    rw [lossyGo.eq_def]
    split
    all_goals
      first
      | (simp only [List.append_nil]; exact le_rfl)
      | ((try simp only [])
         split_ifs <;>
          refine le_trans (ih _ _ ?_ c) ?_ <;>
          first
          | (simp at hlen ⊢; omega)
          | (simp only [List.reverse_cons, List.append_assoc, List.singleton_append,
              List.cons_append, List.nil_append]
             first
             | exact le_rfl
             | apply decode_merge_both_small
             | (apply decode_merge_both_big
                omega)
             | apply decode_merge_prev
             | apply decode_merge_next))
      | ((try simp only [])
         refine le_trans (ih _ _ ?_ c) ?_ <;>
          first
          | (simp at hlen ⊢; omega)
          | (simp only [List.reverse_cons, List.append_assoc, List.singleton_append,
              List.cons_append, List.nil_append]
             exact le_rfl))

theorem lossyCompressRle_decode_le (level : Nat) (blocks : List Block) (c : Nat) :
    (↑(rleDecodeFrom c (lossyCompressRle level blocks)) : Multiset Nat) ≤
      ↑(rleDecodeFrom c blocks) := by
  have h := lossyGo_decode_le level blocks.length blocks [] (le_refl _) c
  simpa [lossyCompressRle] using h

/-! ### Total k-mer count and p-value recomputation -/

/-- `is_syncmer` from src/utility.rs: the position of the minimal s-mer
(itertools `position_min`, earliest tie) must equal the syncmer offset. -/
def is_syncmer (kmer kmerSmerDiff smerMask syncmerOffset : Nat) : Bool :=
  if kmerSmerDiff = 0 then true
  else
    positionMin ((List.range (kmerSmerDiff + 1)).map
      (fun i => (kmer >>> ((kmerSmerDiff - i) <<< 1)) &&& smerMask)) == some syncmerOffset

/-- `compute_total_kmers` from src/utility.rs: brute-force count of canonical
k-mer values (optionally restricted to syncmers) among all `4^k` k-mers. -/
def compute_total_kmers (kmerLen : Nat) (syncmers : Option (Nat × Nat)) : Nat :=
  let totalKmers := 4 ^ kmerLen
  match syncmers with
  | some (smerLen, syncmerOffset) =>
    let smerMask := (1 <<< (smerLen <<< 1)) - 1
    let kmerSmerDiff := kmerLen - smerLen
    ((List.range totalKmers).filterMap (fun kmer =>
      let canonicalKmer := min kmer (reverseCompliment kmerLen kmer)
      if kmer = canonicalKmer then
        if is_syncmer kmer kmerSmerDiff smerMask syncmerOffset then some kmer else none
      else none)).length
  | none =>
    ((List.range totalKmers).filterMap (fun kmer =>
      let canonicalKmer := min kmer (reverseCompliment kmerLen kmer)
      if kmer = canonicalKmer then some kmer else none)).length

/-- One position-increment pass shared by `recompute_p_values` and
`classify`: `counts[i] += 1` for every yielded position `i`. -/
def addCounts (counts : List Nat) (positions : List Nat) : List Nat :=
  positions.foldl (fun cs i => cs.set i (cs.getD i 0 + 1)) counts

/-- `file2kmer_num` of `Database::recompute_p_values`: per-file set-bit
counts accumulated over all RLEs. -/
def fileKmerCounts (numFiles : Nat) (rles : List (List Block)) : List Nat :=
  rles.foldl (fun counts rle => addCounts counts (collectIndices rle))
    (List.replicate numFiles 0)

/-- `Database::recompute_p_values` (src/database.rs), with exact rational
division standing for the `f64` division. -/
def recompute_p_values (kmerLen : Nat) (syncmerInfo : Option (Nat × Nat))
    (numFiles : Nat) (rles : List (List Block)) : List ℚ :=
  (fileKmerCounts numFiles rles).map
    (fun (kmerNum : Nat) => (kmerNum : ℚ) / (compute_total_kmers kmerLen syncmerInfo : ℚ))

/-- The per-RLE block rewriting of `Database::lossy_compression` applied to
the whole RLE table. -/
def lossy_compression (compressionLevel : Nat) (rles : List (List Block)) :
    List (List Block) :=
  rles.map (lossyCompressRle compressionLevel)

theorem getD_set_self {l : List Nat} {i v : Nat} (h : i < l.length) :
    (l.set i v).getD i 0 = v := by
  rw [List.getD_eq_getElem?_getD, List.getElem?_set_self]
  · rfl
  · exact h

theorem getD_set_ne {l : List Nat} {i j v : Nat} (h : i ≠ j) :
    (l.set i v).getD j 0 = l.getD j 0 := by
  rw [List.getD_eq_getElem?_getD, List.getElem?_set_ne h, ← List.getD_eq_getElem?_getD]

theorem addCounts_cons (counts : List Nat) (p : Nat) (ps : List Nat) :
    addCounts counts (p :: ps) = addCounts (counts.set p (counts.getD p 0 + 1)) ps := rfl

theorem addCounts_length (ps : List Nat) : ∀ counts : List Nat,
    (addCounts counts ps).length = counts.length := by
  induction ps with
  | nil => intro counts; rfl
  | cons p ps ih =>
    intro counts
    rw [addCounts_cons, ih, List.length_set]

theorem addCounts_getD (ps : List Nat) : ∀ (counts : List Nat) (i : Nat), i < counts.length →
    (addCounts counts ps).getD i 0 = counts.getD i 0 + ps.count i := by
  induction ps with
  | nil => intro counts i _; simp [addCounts]
  | cons p ps ih =>
    intro counts i hi
    rw [addCounts_cons, ih _ i (by rw [List.length_set]; exact hi)]
    by_cases hpi : p = i
    · subst hpi
      rw [getD_set_self hi, List.count_cons_self]
      omega
    · rw [getD_set_ne hpi, List.count_cons_of_ne (by simpa using Ne.symm hpi)]

theorem foldl_addCounts_getD (rles : List (List Block)) :
    ∀ (counts : List Nat) (i : Nat), i < counts.length →
    ((rles.foldl (fun cs rle => addCounts cs (collectIndices rle)) counts).getD i 0) =
      counts.getD i 0 + (rles.map (fun rle => (collectIndices rle).count i)).sum := by
  induction rles with
  | nil => intro counts i _; simp
  | cons rle rles ih =>
    intro counts i hi
    rw [List.foldl_cons, ih _ i (by rw [addCounts_length]; exact hi),
      addCounts_getD _ _ _ hi, List.map_cons, List.sum_cons]
    omega

theorem foldl_addCounts_length (rles : List (List Block)) : ∀ counts : List Nat,
    (rles.foldl (fun cs rle => addCounts cs (collectIndices rle)) counts).length =
      counts.length := by
  induction rles with
  | nil => intro counts; rfl
  | cons rle rles ih => intro counts; rw [List.foldl_cons, ih, addCounts_length]

theorem fileKmerCounts_length (F : Nat) (rles : List (List Block)) :
    (fileKmerCounts F rles).length = F := by
  rw [fileKmerCounts, foldl_addCounts_length, List.length_replicate]

theorem fileKmerCounts_getD (F : Nat) (rles : List (List Block)) (i : Nat) (hi : i < F) :
    (fileKmerCounts F rles).getD i 0 =
      (rles.map (fun rle => (collectIndices rle).count i)).sum := by
  rw [fileKmerCounts, foldl_addCounts_getD _ _ _ (by simpa using hi)]
  simp

/-- Each per-file count can only shrink under the lossy pass. -/
theorem collectIndices_lossy_count_le (level : Nat) (rle : List Block) (i : Nat) :
    (collectIndices (lossyCompressRle level rle)).count i ≤ (collectIndices rle).count i := by
  have h := lossyCompressRle_decode_le level rle 0
  have h2 := Multiset.le_iff_count.mp h i
  simpa [collectIndices] using h2

theorem fileKmerCounts_lossy_le (level F : Nat) (rles : List (List Block)) (i : Nat) :
    (fileKmerCounts F (lossy_compression level rles)).getD i 0 ≤
      (fileKmerCounts F rles).getD i 0 := by
  by_cases hi : i < F
  · rw [fileKmerCounts_getD F _ i hi, fileKmerCounts_getD F rles i hi, lossy_compression,
      List.map_map]
    exact List.sum_le_sum (fun rle _ => collectIndices_lossy_count_le level rle i)
  · rw [List.getD_eq_getElem?_getD, List.getD_eq_getElem?_getD,
      List.getElem?_eq_none (by rw [fileKmerCounts_length]; omega),
      List.getElem?_eq_none (by rw [fileKmerCounts_length]; omega)]

/-- Pointwise decrease of the recomputed p-values across the lossy pass. -/
theorem recompute_p_values_lossy_le (level kmerLen : Nat) (sync : Option (Nat × Nat))
    (F : Nat) (rles : List (List Block)) (i : Nat) :
    (recompute_p_values kmerLen sync F (lossy_compression level rles)).getD i 0 ≤
      (recompute_p_values kmerLen sync F rles).getD i 0 := by
  by_cases hi : i < F
  · have h1 : i < (fileKmerCounts F (lossy_compression level rles)).length := by
      rw [fileKmerCounts_length]; exact hi
    have h2 : i < (fileKmerCounts F rles).length := by
      rw [fileKmerCounts_length]; exact hi
    rw [recompute_p_values, recompute_p_values, List.getD_eq_getElem?_getD,
      List.getD_eq_getElem?_getD, List.getElem?_map, List.getElem?_map,
      List.getElem?_eq_getElem h1, List.getElem?_eq_getElem h2]
    simp only [Option.map_some', Option.getD_some]
    have hcount : (fileKmerCounts F (lossy_compression level rles))[i] ≤
        (fileKmerCounts F rles)[i] := by
      have := fileKmerCounts_lossy_le level F rles i
      rwa [List.getD_eq_getElem?_getD, List.getD_eq_getElem?_getD,
        List.getElem?_eq_getElem h1, List.getElem?_eq_getElem h2] at this
    rcases Nat.eq_zero_or_pos (compute_total_kmers kmerLen sync) with hT | hT
    · rw [hT]
      simp
    · have hTq : (0 : ℚ) < (compute_total_kmers kmerLen sync : ℚ) := by
        exact_mod_cast hT
      exact (div_le_div_iff_of_pos_right hTq).mpr (by exact_mod_cast hcount)
  · rw [recompute_p_values, recompute_p_values, List.getD_eq_getElem?_getD,
      List.getD_eq_getElem?_getD,
      List.getElem?_eq_none (by rw [List.length_map, fileKmerCounts_length]; omega),
      List.getElem?_eq_none (by rw [List.length_map, fileKmerCounts_length]; omega)]

/-! ### The classifier -/

/-- `Database` (src/database.rs), restricted to the fields that `classify`
reads.  `f64`/`BigExpFloat` values are modelled as exact rationals and the
`HashMap` as a partial function. -/
structure Database where
  files : List String
  kmerLen : Nat
  kmerToRleIndex : Nat → Option Nat
  pValues : List ℚ
  rles : List (List Block)
  syncmerInfo : Option (Nat × Nat)
  taxIds : List Nat

/-- `Database::num_files`. -/
def Database.numFiles (db : Database) : Nat := db.files.length

/-- The k-mer stream `classify` consumes: the canonical k-mer iterator with
every value cast `as u32`. -/
def classifyKmers (db : Database) (read : List Nat) : List Nat :=
  (canonicalKmerIterEmits read db.kmerLen db.syncmerInfo).map (· % 2 ^ 32)

/-- The hit-accumulation loop of `classify`: `num_hits` starts at
`vec![0; num_files]`, each k-mer found in `kmer_to_rle_index` adds one hit
per decoded position of its RLE, and `n_total` counts every emitted k-mer. -/
def classifyCounts (db : Database) (read : List Nat) : List Nat × Nat :=
  (classifyKmers db read).foldl
    (fun (st : List Nat × Nat) kmer =>
      match db.kmerToRleIndex kmer with
      | some idx => (addCounts st.1 (collectIndices (db.rles.getD idx [])), st.2 + 1)
      | none => (st.1, st.2 + 1))
    (List.replicate db.numFiles 0, 0)

/-- `f64::round` (round half away from zero) followed by `as usize`, on the
nonnegative rationals `classify` feeds it: `⌊q + 1/2⌋` clamped to `Nat`. -/
def roundQ (q : ℚ) : Nat := (⌊q + 1 / 2⌋).toNat

/-- The `filter_map` of `classify`: the files whose hit count strictly beats
the expected hit count under the null, paired with the looked-up
probability at the scaled hit count `x`. -/
def classifyCandidates (db : Database) (lookupTable : List ℚ) (nMax : Nat)
    (numHits : List Nat) (nTotal : Nat) : List (Nat × ℚ) :=
  ((numHits.zip db.pValues).enum).filterMap
    (fun (pr : Nat × (Nat × ℚ)) =>
      if (nTotal : ℚ) * pr.2.2 < (pr.2.1 : ℚ) then
        some (pr.1, lookupTable.getD
          (pr.1 * (nMax + 1) + roundQ ((pr.2.1 : ℚ) * (nMax : ℚ) / (nTotal : ℚ))) 0)
      else none)

/-- Rust `Iterator::min_by` on the `(index, probability)` pairs: a fold that
replaces the current best only on a strictly smaller probability, so the
first minimum wins. -/
def min_by (l : List (Nat × ℚ)) : Option (Nat × ℚ) :=
  l.foldl (fun acc x =>
    match acc with
    | none => some x
    | some a => if x.2 < a.2 then some x else some a) none

/-- `Database::classify` (src/database.rs): the classification result (the
timing pair of the source is dropped). -/
def classify (db : Database) (read : List Nat) (cutoffThreshold : ℚ) (nMax : Nat)
    (lookupTable : List ℚ) : Option (String × Nat) :=
  let counts := classifyCounts db read
  match min_by (classifyCandidates db lookupTable nMax counts.1 counts.2) with
  | some (lowestProbIndex, lowestProb) =>
    if lowestProb < cutoffThreshold then
      some (db.files.getD lowestProbIndex "", db.taxIds.getD lowestProbIndex 0)
    else none
  | none => none

theorem classifyFold_fst_length (db : Database) (kmers : List Nat) :
    ∀ st : List Nat × Nat,
    ((kmers.foldl (fun (st : List Nat × Nat) kmer =>
        match db.kmerToRleIndex kmer with
        | some idx => (addCounts st.1 (collectIndices (db.rles.getD idx [])), st.2 + 1)
        | none => (st.1, st.2 + 1)) st).1.length = st.1.length) := by
  induction kmers with
  | nil => intro st; rfl
  | cons kmer kmers ih =>
    intro st
    rw [List.foldl_cons, ih]
    cases db.kmerToRleIndex kmer with
    | some idx => exact addCounts_length _ _
    | none => rfl

theorem classifyCounts_fst_length (db : Database) (read : List Nat) :
    (classifyCounts db read).1.length = db.numFiles := by
  rw [classifyCounts, classifyFold_fst_length, List.length_replicate]

/-- Structured form of the `min_by` fold once the accumulator is seeded. -/
def min_byAux (a : Nat × ℚ) : List (Nat × ℚ) → Nat × ℚ
  | [] => a
  | x :: l => if x.2 < a.2 then min_byAux x l else min_byAux a l

theorem min_by_foldl_eq_aux (l : List (Nat × ℚ)) : ∀ a : Nat × ℚ,
    (l.foldl (fun acc x =>
      match acc with
      | none => some x
      | some a => if x.2 < a.2 then some x else some a) (some a)) = some (min_byAux a l) := by
  induction l with
  | nil => intro a; rfl
  | cons x l ih =>
    intro a
    rw [List.foldl_cons]
    show (l.foldl _ (if x.2 < a.2 then some x else some a)) = _
    by_cases h : x.2 < a.2
    · rw [if_pos h, ih]
      simp [min_byAux, h]
    · rw [if_neg h, ih]
      simp [min_byAux, h]

theorem min_by_cons (x : Nat × ℚ) (l : List (Nat × ℚ)) :
    min_by (x :: l) = some (min_byAux x l) := by
  rw [min_by, List.foldl_cons]
  exact min_by_foldl_eq_aux l x

theorem min_byAux_split : ∀ (l : List (Nat × ℚ)) (a : Nat × ℚ),
    ∃ l1 l2, a :: l = l1 ++ min_byAux a l :: l2 ∧
      (∀ y ∈ l1, (min_byAux a l).2 < y.2) ∧
      (∀ y ∈ a :: l, (min_byAux a l).2 ≤ y.2) := by
  intro l
  induction l with
  | nil =>
    intro a
    exact ⟨[], [], rfl, by simp, by simp [min_byAux]⟩
  | cons x l ih =>
    intro a
    by_cases h : x.2 < a.2
    · obtain ⟨l1, l2, heq, hlt, hle⟩ := ih x
      have hb : min_byAux a (x :: l) = min_byAux x l := by simp [min_byAux, h]
      rw [hb]
      refine ⟨a :: l1, l2, ?_, ?_, ?_⟩
      · rw [List.cons_append, ← heq]
      · intro y hy
        rcases List.mem_cons.mp hy with hy | hy
        · subst hy
          exact lt_of_le_of_lt (hle x (List.mem_cons_self x l)) h
        · exact hlt y hy
      · intro y hy
        rcases List.mem_cons.mp hy with hy | hy
        · subst hy
          exact le_of_lt (lt_of_le_of_lt (hle x (List.mem_cons_self x l)) h)
        · exact hle y hy
    · obtain ⟨l1, l2, heq, hlt, hle⟩ := ih a
      have hb : min_byAux a (x :: l) = min_byAux a l := by simp [min_byAux, h]
      rw [hb]
      have hax : (min_byAux a l).2 ≤ x.2 :=
        le_trans (hle a (List.mem_cons_self a l)) (not_lt.mp h)
      cases l1 with
      | nil =>
        have ha : a = min_byAux a l := by injection heq with h1 h2
        have hl : l = l2 := by injection heq with h1 h2
        refine ⟨[], x :: l2, ?_, by simp, ?_⟩
        · rw [List.nil_append, ← ha, hl]
        · intro y hy
          rcases List.mem_cons.mp hy with hy | hy
          · rw [hy]
            exact hle a (List.mem_cons_self a l)
          · rcases List.mem_cons.mp hy with hy | hy
            · subst hy
              exact hax
            · exact hle y (List.mem_cons_of_mem a (hl ▸ hy))
      | cons a0 l1' =>
        have ha0 : a0 = a := by injection heq with h1 h2; exact h1.symm
        have hl : l = l1' ++ min_byAux a l :: l2 := by injection heq with h1 h2
        have hba : (min_byAux a l).2 < a.2 := hlt a0 (List.mem_cons_self a0 l1') |>.trans_eq
          (by rw [ha0])
        refine ⟨a :: x :: l1', l2, ?_, ?_, ?_⟩
        · rw [List.cons_append, List.cons_append, ← hl]
        · intro y hy
          rcases List.mem_cons.mp hy with hy | hy
          · subst hy; exact hba
          · rcases List.mem_cons.mp hy with hy | hy
            · subst hy
              exact lt_of_lt_of_le hba (not_lt.mp h)
            · exact hlt y (ha0 ▸ List.mem_cons_of_mem a0 hy)
        · intro y hy
          rcases List.mem_cons.mp hy with hy | hy
          · rw [hy]
            exact hle a (List.mem_cons_self a l)
          · rcases List.mem_cons.mp hy with hy | hy
            · subst hy
              exact hax
            · exact hle y (List.mem_cons_of_mem a hy)

/-- Characterization of Rust's `min_by`: it returns an element of the list
that is strictly smaller than everything before it and at most everything
after it — the first minimum. -/
theorem min_by_spec {l : List (Nat × ℚ)} {b : Nat × ℚ} (h : min_by l = some b) :
    ∃ l1 l2, l = l1 ++ b :: l2 ∧ (∀ y ∈ l1, b.2 < y.2) ∧ (∀ y ∈ l, b.2 ≤ y.2) := by
  cases l with
  | nil => cases h
  | cons x l =>
    rw [min_by_cons] at h
    have hb : b = min_byAux x l := by injection h with h1; exact h1.symm
    subst hb
    exact min_byAux_split l x

theorem min_by_eq_none_iff (l : List (Nat × ℚ)) : min_by l = none ↔ l = [] := by
  cases l with
  | nil => simp [min_by]
  | cons x l => simp [min_by_cons]

/-- Indices produced by the `enumerate`-then-`filter_map` shape of
`classify`, as a membership characterization. -/
theorem enumFrom_filterMap_mem {α β : Type} (cond : α → Prop) [DecidablePred cond]
    (g : Nat → α → β) :
    ∀ (z : List α) (off j : Nat) (q : β),
    ((j, q) ∈ (z.enumFrom off).filterMap
        (fun pr => if cond pr.2 then some (pr.1, g pr.1 pr.2) else none)) ↔
      ∃ x, z[j - off]? = some x ∧ off ≤ j ∧ cond x ∧ q = g j x := by
  intro z
  induction z with
  | nil => intro off j q; simp
  | cons x z ih =>
    intro off j q
    rw [List.enumFrom_cons, List.filterMap_cons]
    by_cases hc : cond x
    · rw [if_pos hc]
      constructor
      · intro hmem
        rcases List.mem_cons.mp hmem with hmem | hmem
        · have hj : j = off := congrArg Prod.fst hmem
          have hq2 : q = g off x := congrArg Prod.snd hmem
          exact ⟨x, by rw [hj, Nat.sub_self]; simp, by omega, hc, by rw [hj]; exact hq2⟩
        · obtain ⟨y, hy, hoff, hcy, hq⟩ := (ih (off + 1) j q).mp hmem
          refine ⟨y, ?_, by omega, hcy, hq⟩
          rw [show j - off = (j - (off + 1)) + 1 by omega, List.getElem?_cons_succ]
          exact hy
      · rintro ⟨y, hy, hoff, hcy, hq⟩
        by_cases hj : j = off
        · subst hj
          rw [Nat.sub_self, List.getElem?_cons_zero] at hy
          have hxy : x = y := by simpa using hy
          subst hxy
          subst hq
          exact List.mem_cons_self _ _
        · refine List.mem_cons_of_mem _ ((ih (off + 1) j q).mpr ⟨y, ?_, by omega, hcy, hq⟩)
          rw [show j - off = (j - (off + 1)) + 1 by omega, List.getElem?_cons_succ] at hy
          exact hy
    · rw [if_neg hc]
      constructor
      · intro hmem
        obtain ⟨y, hy, hoff, hcy, hq⟩ := (ih (off + 1) j q).mp hmem
        refine ⟨y, ?_, by omega, hcy, hq⟩
        rw [show j - off = (j - (off + 1)) + 1 by omega, List.getElem?_cons_succ]
        exact hy
      · rintro ⟨y, hy, hoff, hcy, hq⟩
        by_cases hj : j = off
        · subst hj
          rw [Nat.sub_self, List.getElem?_cons_zero] at hy
          have hxy : x = y := by simpa using hy
          subst hxy
          exact absurd hcy hc
        · refine (ih (off + 1) j q).mpr ⟨y, ?_, by omega, hcy, hq⟩
          rw [show j - off = (j - (off + 1)) + 1 by omega, List.getElem?_cons_succ] at hy
          exact hy

theorem enumFrom_filterMap_lb {α β : Type} (cond : α → Prop) [DecidablePred cond]
    (g : Nat → α → β) :
    ∀ (z : List α) (off : Nat) (y : Nat × β),
    y ∈ (z.enumFrom off).filterMap
        (fun pr => if cond pr.2 then some (pr.1, g pr.1 pr.2) else none) → off ≤ y.1 := by
  intro z
  induction z with
  | nil => intro off y h; simp at h
  | cons x z ih =>
    intro off y h
    rw [List.enumFrom_cons, List.filterMap_cons] at h
    by_cases hc : cond x
    · rw [if_pos hc] at h
      rcases List.mem_cons.mp h with h | h
      · subst h; exact le_refl off
      · exact le_trans (by omega) (ih (off + 1) y h)
    · rw [if_neg hc] at h
      exact le_trans (by omega) (ih (off + 1) y h)

theorem enumFrom_filterMap_pairwise {α β : Type} (cond : α → Prop) [DecidablePred cond]
    (g : Nat → α → β) :
    ∀ (z : List α) (off : Nat),
    ((z.enumFrom off).filterMap
        (fun pr => if cond pr.2 then some (pr.1, g pr.1 pr.2) else none)).Pairwise
      (fun a b => a.1 < b.1) := by
  intro z
  induction z with
  | nil => intro off; simp
  | cons x z ih =>
    intro off
    rw [List.enumFrom_cons, List.filterMap_cons]
    by_cases hc : cond x
    · rw [if_pos hc]
      refine List.pairwise_cons.mpr ⟨?_, ih (off + 1)⟩
      intro y hy
      exact lt_of_lt_of_le (by omega) (enumFrom_filterMap_lb cond g z (off + 1) y hy)
    · rw [if_neg hc]
      exact ih (off + 1)

theorem zip_getElem?_eq_some {l1 : List Nat} {l2 : List ℚ} :
    ∀ {i : Nat} {p : Nat × ℚ}, (l1.zip l2)[i]? = some p ↔
      l1[i]? = some p.1 ∧ l2[i]? = some p.2 := by
  induction l1 generalizing l2 with
  | nil => intro i p; simp
  | cons a l1 ih =>
    intro i p
    cases l2 with
    | nil => simp
    | cons b l2 =>
      cases i with
      | zero =>
        simp only [List.zip_cons_cons, List.getElem?_cons_zero, Option.some.injEq]
        constructor
        · intro h
          rw [← h]
          exact ⟨rfl, rfl⟩
        · rintro ⟨h1, h2⟩
          rw [Prod.ext_iff]
          exact ⟨h1, h2⟩
      | succ i =>
        simp only [List.zip_cons_cons, List.getElem?_cons_succ]
        exact ih

theorem getD_of_getElem?_some {l : List Nat} {i v : Nat} (h : l[i]? = some v) :
    l.getD i 0 = v := by
  rw [List.getD_eq_getElem?_getD, h]
  rfl

theorem getD_of_getElem?_someQ {l : List ℚ} {i : Nat} {v : ℚ} (h : l[i]? = some v) :
    l.getD i 0 = v := by
  rw [List.getD_eq_getElem?_getD, h]
  rfl

theorem getElem?_eq_some_getD {l : List Nat} {i : Nat} (h : i < l.length) :
    l[i]? = some (l.getD i 0) := by
  rw [List.getElem?_eq_getElem h, List.getD_eq_getElem?_getD, List.getElem?_eq_getElem h]
  rfl

theorem getElem?_eq_some_getDQ {l : List ℚ} {i : Nat} (h : i < l.length) :
    l[i]? = some (l.getD i 0) := by
  rw [List.getElem?_eq_getElem h, List.getD_eq_getElem?_getD, List.getElem?_eq_getElem h]
  rfl

/-- Membership in the candidate list, in index form: exactly the files whose
hit count strictly beats the expected hit count, carrying the looked-up
probability at the scaled hit count. -/
theorem classifyCandidates_mem (db : Database) (lut : List ℚ) (nMax : Nat)
    (numHits : List Nat) (nTotal : Nat) (i : Nat) (q : ℚ) :
    (i, q) ∈ classifyCandidates db lut nMax numHits nTotal ↔
      i < numHits.length ∧ i < db.pValues.length ∧
        (nTotal : ℚ) * db.pValues.getD i 0 < (numHits.getD i 0 : ℚ) ∧
        q = lut.getD (i * (nMax + 1) +
          roundQ ((numHits.getD i 0 : ℚ) * (nMax : ℚ) / (nTotal : ℚ))) 0 := by
  have h := enumFrom_filterMap_mem
    (fun (x : Nat × ℚ) => (nTotal : ℚ) * x.2 < (x.1 : ℚ))
    (fun j (x : Nat × ℚ) => lut.getD (j * (nMax + 1) +
      roundQ ((x.1 : ℚ) * (nMax : ℚ) / (nTotal : ℚ))) 0)
    (numHits.zip db.pValues) 0 i q
  rw [Nat.sub_zero] at h
  constructor
  · intro hmem
    obtain ⟨x, hx, _, hcx, hq⟩ := h.mp hmem
    obtain ⟨h1, h2⟩ := zip_getElem?_eq_some.mp hx
    have hi1 : i < numHits.length := by
      by_contra hlt
      rw [List.getElem?_eq_none (by omega)] at h1
      cases h1
    have hi2 : i < db.pValues.length := by
      by_contra hlt
      rw [List.getElem?_eq_none (by omega)] at h2
      cases h2
    rw [getD_of_getElem?_some h1, getD_of_getElem?_someQ h2]
    exact ⟨hi1, hi2, hcx, hq⟩
  · rintro ⟨hi1, hi2, hcond, hq⟩
    refine h.mpr ⟨(numHits.getD i 0, db.pValues.getD i 0), ?_, Nat.zero_le i, hcond, hq⟩
    exact zip_getElem?_eq_some.mpr ⟨getElem?_eq_some_getD hi1, getElem?_eq_some_getDQ hi2⟩

/-- Candidate indices are strictly increasing along the candidate list. -/
theorem classifyCandidates_pairwise (db : Database) (lut : List ℚ) (nMax : Nat)
    (numHits : List Nat) (nTotal : Nat) :
    (classifyCandidates db lut nMax numHits nTotal).Pairwise (fun a b => a.1 < b.1) :=
  enumFrom_filterMap_pairwise
    (fun (x : Nat × ℚ) => (nTotal : ℚ) * x.2 < (x.1 : ℚ))
    (fun j (x : Nat × ℚ) => lut.getD (j * (nMax + 1) +
      roundQ ((x.1 : ℚ) * (nMax : ℚ) / (nTotal : ℚ))) 0)
    (numHits.zip db.pValues) 0

/-! ### Degenerate reads and index bounds in `classify` -/

theorem windows_all_invalid {k : Nat} (hk : 1 ≤ k) :
    ∀ seq : List Nat, (∀ c ∈ seq, validByte c = false) → windows k seq = [] := by
  intro seq
  induction seq with
  | nil => intro _; exact windows_short (by simpa using hk)
  | cons c rest ih =>
    intro h
    have hc : base2int c = none := by
      have hv := h c (List.mem_cons_self c rest)
      rw [validByte] at hv
      cases hb : base2int c with
      | none => rfl
      | some b => rw [hb] at hv; cases hv
    have hmem : c ∈ (c :: rest).take k := by
      cases k with
      | zero => omega
      | succ k => simp
    rw [windows_cons, headWindow?_eq_none_of_invalid hc hmem]
    exact ih (fun d hd => h d (List.mem_cons_of_mem c hd))

/-- Degenerate reads produce no emissions: too short, or no valid base. -/
theorem specEmits_eq_nil {k : Nat} (s t : Nat) (canonical : Bool) {seq : List Nat}
    (hk : 1 ≤ k) (h : seq.length < k ∨ ∀ c ∈ seq, validByte c = false) :
    specEmits k s t canonical seq = [] := by
  have hw : windows k seq = [] := by
    rcases h with h | h
    · exact windows_short h
    · exact windows_all_invalid hk seq h
  rw [specEmits, windowCands, hw]
  rfl

theorem canonicalKmerIterEmits_eq_nil {db : Database} {read : List Nat}
    (hk : 1 ≤ db.kmerLen) (h : read.length < db.kmerLen ∨ ∀ c ∈ read, validByte c = false) :
    canonicalKmerIterEmits read db.kmerLen db.syncmerInfo = [] := by
  rw [canonicalKmerIterEmits.eq_def]
  cases db.syncmerInfo with
  | some st =>
    obtain ⟨s1, t1⟩ := st
    show kmerIterEmits read db.kmerLen true s1 t1 = []
    rw [kmerIterEmits_eq_specEmits _ _ _ _ _ hk]
    exact specEmits_eq_nil _ _ _ hk h
  | none =>
    show kmerIterEmits read db.kmerLen true db.kmerLen 0 = []
    rw [kmerIterEmits_eq_specEmits _ _ _ _ _ hk]
    exact specEmits_eq_nil _ _ _ hk h

theorem classifyCounts_degenerate {db : Database} {read : List Nat}
    (hk : 1 ≤ db.kmerLen) (h : read.length < db.kmerLen ∨ ∀ c ∈ read, validByte c = false) :
    classifyCounts db read = (List.replicate db.numFiles 0, 0) := by
  rw [classifyCounts, classifyKmers, canonicalKmerIterEmits_eq_nil hk h]
  rfl

theorem mem_enumFrom_snd {γ : Type} : ∀ (l : List γ) (off : Nat) (pr : Nat × γ),
    pr ∈ l.enumFrom off → pr.2 ∈ l := by
  intro l
  induction l with
  | nil => intro off pr h; simp at h
  | cons x l ih =>
    intro off pr h
    rw [List.enumFrom_cons] at h
    rcases List.mem_cons.mp h with h | h
    · rw [h]
      exact List.mem_cons_self _ _
    · exact List.mem_cons_of_mem _ (ih (off + 1) pr h)

theorem classifyCandidates_degenerate (db : Database) (lut : List ℚ) (nMax F : Nat) :
    classifyCandidates db lut nMax (List.replicate F 0) 0 = [] := by
  rw [classifyCandidates, List.filterMap_eq_nil_iff]
  intro pr hpr
  have hmem2 : pr.2 ∈ (List.replicate F 0).zip db.pValues :=
    mem_enumFrom_snd _ 0 pr hpr
  have h21 : pr.2.1 = 0 := by
    rcases pr with ⟨j, h1, p⟩
    exact List.eq_of_mem_replicate (List.of_mem_zip hmem2).1
  rw [if_neg]
  rw [h21]
  push_cast
  simp

theorem classifyFold_le (db : Database)
    (hwf : ∀ rle ∈ db.rles, (collectIndices rle).Nodup) (kmers : List Nat) :
    ∀ st : List Nat × Nat, (∀ i, st.1.getD i 0 ≤ st.2) →
      ∀ i, ((kmers.foldl (fun (st : List Nat × Nat) kmer =>
          match db.kmerToRleIndex kmer with
          | some idx => (addCounts st.1 (collectIndices (db.rles.getD idx [])), st.2 + 1)
          | none => (st.1, st.2 + 1)) st).1.getD i 0 ≤
        (kmers.foldl (fun (st : List Nat × Nat) kmer =>
          match db.kmerToRleIndex kmer with
          | some idx => (addCounts st.1 (collectIndices (db.rles.getD idx [])), st.2 + 1)
          | none => (st.1, st.2 + 1)) st).2) := by
  induction kmers with
  | nil => intro st h i; exact h i
  | cons kmer kmers ih =>
    intro st h i
    rw [List.foldl_cons]
    refine ih _ ?_ i
    cases hl : db.kmerToRleIndex kmer with
    | none =>
      intro j
      show st.1.getD j 0 ≤ st.2 + 1
      exact le_trans (h j) (by omega)
    | some idx =>
      intro j
      show (addCounts st.1 (collectIndices (db.rles.getD idx []))).getD j 0 ≤ st.2 + 1
      have hnodup : (collectIndices (db.rles.getD idx [])).Nodup := by
        rcases Nat.lt_or_ge idx db.rles.length with hlt | hge
        · refine hwf _ ?_
          rw [List.getD_eq_getElem?_getD, List.getElem?_eq_getElem hlt]
          exact List.getElem_mem hlt
        · rw [List.getD_eq_getElem?_getD, List.getElem?_eq_none hge]
          simp [collectIndices, rleDecodeFrom]
      rcases Nat.lt_or_ge j st.1.length with hj | hj
      · rw [addCounts_getD _ _ _ hj]
        have hcount : (collectIndices (db.rles.getD idx [])).count j ≤ 1 :=
          List.nodup_iff_count_le_one.mp hnodup j
        have := h j
        omega
      · rw [List.getD_eq_getElem?_getD,
          List.getElem?_eq_none (by rw [addCounts_length]; omega)]
        exact Nat.zero_le _

/-- No file can collect more hits than the number of queried k-mers. -/
theorem classifyCounts_hits_le (db : Database) (read : List Nat)
    (hwf : ∀ rle ∈ db.rles, (collectIndices rle).Nodup) (i : Nat) :
    (classifyCounts db read).1.getD i 0 ≤ (classifyCounts db read).2 := by
  rw [classifyCounts]
  refine classifyFold_le db hwf _ _ ?_ i
  intro j
  rcases Nat.lt_or_ge j db.numFiles with hj | hj
  · rw [List.getD_eq_getElem?_getD, List.getElem?_eq_getElem (by simpa using hj)]
    simp
  · rw [List.getD_eq_getElem?_getD, List.getElem?_eq_none (by simpa using hj)]
    exact Nat.le_refl 0

theorem roundQ_le_of_le {q : ℚ} {n : Nat} (h0 : q ≤ n) : roundQ q ≤ n := by
  rw [roundQ]
  rw [Int.toNat_le]
  rw [Int.floor_le_iff]
  push_cast
  linarith

/-- The scaled hit count `x` never exceeds `n_max`. -/
theorem roundQ_scaled_le {h nT n : Nat} (hle : h ≤ nT) (hpos : 1 ≤ nT) :
    roundQ ((h : ℚ) * (n : ℚ) / (nT : ℚ)) ≤ n := by
  refine roundQ_le_of_le ?_
  have hT : (0 : ℚ) < (nT : ℚ) := by exact_mod_cast hpos
  rw [div_le_iff₀ hT]
  have : (h : ℚ) ≤ (nT : ℚ) := by exact_mod_cast hle
  nlinarith [Nat.cast_nonneg (α := ℚ) n]

/-- The filter of claim C1's wording: `num_hits[i] > n_total * p_values[i]`. -/
def specPasses (db : Database) (read : List Nat) (i : Nat) : Prop :=
  ((classifyCounts db read).2 : ℚ) * db.pValues.getD i 0 <
    ((classifyCounts db read).1.getD i 0 : ℚ)

instance (db : Database) (read : List Nat) (i : Nat) : Decidable (specPasses db read i) := by
  rw [specPasses]
  infer_instance

/-- The fetched probability of claim C1's wording:
`lookup_table[i*(n_fixed+1) + round(num_hits[i]*n_fixed/n_total)]`. -/
def specProb (db : Database) (read : List Nat) (nMax : Nat) (lut : List ℚ) (i : Nat) : ℚ :=
  lut.getD (i * (nMax + 1) +
    roundQ (((classifyCounts db read).1.getD i 0 : ℚ) * (nMax : ℚ) /
      ((classifyCounts db read).2 : ℚ))) 0

theorem min_by_forward {l : List (Nat × ℚ)} (hpw : l.Pairwise (fun a b => a.1 < b.1))
    {b : Nat × ℚ} (h : min_by l = some b) :
    b ∈ l ∧ (∀ y ∈ l, b.2 ≤ y.2) ∧ (∀ y ∈ l, y.1 < b.1 → b.2 < y.2) := by
  obtain ⟨l1, l2, heq, hlt, hle⟩ := min_by_spec h
  subst heq
  refine ⟨by simp, hle, ?_⟩
  intro y hy hylt
  rcases List.mem_append.mp hy with hy | hy
  · exact hlt y hy
  · exfalso
    rcases List.mem_cons.mp hy with hy | hy
    · rw [hy] at hylt
      exact lt_irrefl _ hylt
    · have hb : b.1 < y.1 :=
        (List.pairwise_cons.mp (List.pairwise_append.mp hpw).2.1).1 y hy
      omega

theorem min_by_iff {l : List (Nat × ℚ)} (hpw : l.Pairwise (fun a b => a.1 < b.1))
    (huniq : ∀ y z, y ∈ l → z ∈ l → y.1 = z.1 → y = z) (b : Nat × ℚ) :
    min_by l = some b ↔
      b ∈ l ∧ (∀ y ∈ l, b.2 ≤ y.2) ∧ (∀ y ∈ l, y.1 < b.1 → b.2 < y.2) := by
  constructor
  · exact min_by_forward hpw
  · rintro ⟨hmem, hmin, hbefore⟩
    obtain ⟨b', hb'⟩ : ∃ b', min_by l = some b' := by
      cases l with
      | nil => simp at hmem
      | cons x l => exact ⟨_, min_by_cons x l⟩
    obtain ⟨hmem', hmin', hbefore'⟩ := min_by_forward hpw hb'
    have heq2 : b'.2 = b.2 := le_antisymm (hmin' b hmem) (hmin b' hmem')
    have heq1 : b'.1 = b.1 := by
      rcases Nat.lt_trichotomy b'.1 b.1 with h1 | h1 | h1
      · have := hbefore b' hmem' h1
        exact absurd (heq2 ▸ this) (lt_irrefl _)
      · exact h1
      · have := hbefore' b hmem h1
        exact absurd (heq2 ▸ this) (lt_irrefl _)
    rw [hb', huniq b' b hmem' hmem heq1]

/-- Within one candidate list, the probability is a function of the index. -/
theorem classifyCandidates_uniq (db : Database) (lut : List ℚ) (nMax : Nat)
    (numHits : List Nat) (nTotal : Nat) :
    ∀ y z, y ∈ classifyCandidates db lut nMax numHits nTotal →
      z ∈ classifyCandidates db lut nMax numHits nTotal → y.1 = z.1 → y = z := by
  rintro ⟨i, qy⟩ ⟨j, qz⟩ hy hz h1
  simp only at h1
  subst h1
  obtain ⟨_, _, _, hqy⟩ := (classifyCandidates_mem db lut nMax numHits nTotal i qy).mp hy
  obtain ⟨_, _, _, hqz⟩ := (classifyCandidates_mem db lut nMax numHits nTotal i qz).mp hz
  rw [Prod.ext_iff]
  exact ⟨rfl, hqy.trans hqz.symm⟩

/-! ### Database construction (`Database::from`) -/

/-- One `kmer` of file `fileIndex` in the construction loop of
`Database::from`: get-or-insert the RLE index (`entry(kmer).or_insert_with`
handing out `next_rle_index` and bumping it), then push the file index onto
the addressed naive RLE.  `NaiveRunLengthEncoding::push` (rle.rs is not
under src/) is modelled per the spec as appending to the list of pushed
positions. -/
def insertKmer (fileIndex : Nat) (st : (Nat → Option Nat) × Nat × List (List Nat))
    (kmer : Nat) : (Nat → Option Nat) × Nat × List (List Nat) :=
  match st.1 kmer with
  | some idx => (st.1, st.2.1, st.2.2.set idx (st.2.2.getD idx [] ++ [fileIndex]))
  | none =>
    (fun v => if v = kmer then some st.2.1 else st.1 v, st.2.1 + 1,
      st.2.2.set st.2.1 (st.2.2.getD st.2.1 [] ++ [fileIndex]))

/-- The double loop of `Database::from` over `(index, bitmap)` pairs,
starting from the empty map, index `0`, and `total_kmers` empty naive RLEs. -/
def buildNaive (bitmaps : List (List Nat)) (totalKmers : Nat) :
    (Nat → Option Nat) × Nat × List (List Nat) :=
  bitmaps.enum.foldl
    (fun st pr => pr.2.foldl (insertKmer pr.1) st)
    ((fun _ => none), 0, List.replicate totalKmers [])

/-- `Database::from`: the final `kmer_to_rle_index` map together with the
`rles` table — naive RLEs with no blocks dropped, the rest compressed by
`to_rle`. -/
def databaseFrom (bitmaps : List (List Nat)) (totalKmers : Nat) :
    (Nat → Option Nat) × List (List Block) :=
  ((buildNaive bitmaps totalKmers).1,
    (((buildNaive bitmaps totalKmers).2.2.filter (fun l => !l.isEmpty)).map toRle))

/-- The `(file, kmer)` pairs the double loop visits, in visit order. -/
def buildPairsFrom : Nat → List (List Nat) → List (Nat × Nat)
  | _, [] => []
  | i, bm :: rest => bm.map (fun v => (i, v)) ++ buildPairsFrom (i + 1) rest

def buildPairs (bitmaps : List (List Nat)) : List (Nat × Nat) :=
  buildPairsFrom 0 bitmaps

/-- Distinct k-mers in order of first appearance. -/
def keysOf (done : List (Nat × Nat)) : List Nat :=
  done.foldl (fun ks p => if p.2 ∈ ks then ks else ks ++ [p.2]) []

/-- The files that pushed k-mer `v`, in push order. -/
def filesOf (v : Nat) (done : List (Nat × Nat)) : List Nat :=
  (done.filter (fun p => p.2 == v)).map Prod.fst

/-- Index of the first occurrence of `v`. -/
def firstIdx (v : Nat) : List Nat → Option Nat
  | [] => none
  | k :: ks => if k = v then some 0 else (firstIdx v ks).map (· + 1)

theorem firstIdx_none_iff (v : Nat) : ∀ ks : List Nat, firstIdx v ks = none ↔ v ∉ ks := by
  intro ks
  induction ks with
  | nil => simp [firstIdx]
  | cons k ks ih =>
    rw [firstIdx]
    by_cases h : k = v
    · rw [if_pos h]
      simp [h]
    · rw [if_neg h]
      simp only [Option.map_eq_none', ih, List.mem_cons]
      constructor
      · intro hn hor
        rcases hor with hor | hor
        · exact h hor.symm
        · exact hn hor
      · intro hn
        exact fun hv => hn (Or.inr hv)

theorem firstIdx_getElem? {v : Nat} : ∀ {ks : List Nat} {i : Nat},
    firstIdx v ks = some i → ks[i]? = some v := by
  intro ks
  induction ks with
  | nil => intro i h; cases h
  | cons k ks ih =>
    intro i h
    rw [firstIdx] at h
    by_cases hk : k = v
    · rw [if_pos hk] at h
      have hi : i = 0 := by
        injection h with h1
        exact h1.symm
      subst hi
      rw [List.getElem?_cons_zero, hk]
    · rw [if_neg hk] at h
      cases hf : firstIdx v ks with
      | none => rw [hf] at h; cases h
      | some j =>
        rw [hf] at h
        have hi : i = j + 1 := by
          injection h with h1
          exact h1.symm
        subst hi
        rw [List.getElem?_cons_succ]
        exact ih hf

theorem firstIdx_lt_length {v : Nat} {ks : List Nat} {i : Nat}
    (h : firstIdx v ks = some i) : i < ks.length := by
  have := firstIdx_getElem? h
  by_contra hge
  rw [List.getElem?_eq_none (by omega)] at this
  cases this

theorem firstIdx_inj {v w : Nat} {ks : List Nat} {i : Nat}
    (hv : firstIdx v ks = some i) (hw : firstIdx w ks = some i) : v = w := by
  have h1 := firstIdx_getElem? hv
  have h2 := firstIdx_getElem? hw
  rw [h1] at h2
  injection h2

theorem firstIdx_append_self {v : Nat} : ∀ {ks : List Nat}, v ∉ ks →
    firstIdx v (ks ++ [v]) = some ks.length := by
  intro ks
  induction ks with
  | nil => intro _; simp [firstIdx]
  | cons k ks ih =>
    intro h
    rw [List.cons_append, firstIdx,
      if_neg (fun hk => h (List.mem_cons.mpr (Or.inl hk.symm))),
      ih (fun hv => h (List.mem_cons_of_mem k hv))]
    rfl

theorem firstIdx_append_ne {v w : Nat} (h : v ≠ w) : ∀ ks : List Nat,
    firstIdx v (ks ++ [w]) = firstIdx v ks := by
  intro ks
  induction ks with
  | nil =>
    rw [List.nil_append]
    show (if w = v then some 0 else (firstIdx v []).map (· + 1)) = none
    rw [if_neg (fun hw => h hw.symm)]
    rfl
  | cons k ks ih =>
    rw [List.cons_append, firstIdx, firstIdx, ih]

theorem keysOf_snoc (done : List (Nat × Nat)) (p : Nat × Nat) :
    keysOf (done ++ [p]) =
      if p.2 ∈ keysOf done then keysOf done else keysOf done ++ [p.2] := by
  rw [keysOf, List.foldl_append]
  rfl

theorem mem_keysOf_aux : ∀ (done : List (Nat × Nat)) (ks : List Nat) (v : Nat),
    (v ∈ done.foldl (fun ks p => if p.2 ∈ ks then ks else ks ++ [p.2]) ks ↔
      v ∈ ks ∨ v ∈ done.map Prod.snd) := by
  intro done
  induction done with
  | nil => intro ks v; simp
  | cons p done ih =>
    intro ks v
    rw [List.foldl_cons]
    by_cases hp : p.2 ∈ ks
    · rw [if_pos hp, ih]
      simp only [List.map_cons, List.mem_cons]
      constructor
      · rintro (h | h)
        · exact Or.inl h
        · exact Or.inr (Or.inr h)
      · rintro (h | h | h)
        · exact Or.inl h
        · exact Or.inl (by rw [h]; exact hp)
        · exact Or.inr h
    · rw [if_neg hp, ih]
      simp only [List.mem_append, List.mem_cons, List.map_cons, List.not_mem_nil, or_false,
        List.mem_singleton]
      tauto

theorem mem_keysOf (done : List (Nat × Nat)) (v : Nat) :
    v ∈ keysOf done ↔ v ∈ done.map Prod.snd := by
  rw [keysOf, mem_keysOf_aux]
  simp

theorem filesOf_snoc (v : Nat) (done : List (Nat × Nat)) (p : Nat × Nat) :
    filesOf v (done ++ [p]) =
      filesOf v done ++ (if p.2 = v then [p.1] else []) := by
  rw [filesOf, List.filter_append, List.map_append, filesOf]
  congr 1
  by_cases hp : p.2 = v
  · have hb : (p.2 == v) = true := beq_iff_eq.mpr hp
    rw [if_pos hp]
    simp [List.filter_singleton, hb]
  · have hb : (p.2 == v) = false := beq_eq_false_iff_ne.mpr hp
    rw [if_neg hp]
    simp [List.filter_singleton, hb]

theorem filesOf_of_not_mem {v : Nat} {done : List (Nat × Nat)}
    (h : v ∉ done.map Prod.snd) : filesOf v done = [] := by
  rw [filesOf]
  have hf : done.filter (fun p => p.2 == v) = [] := by
    rw [List.filter_eq_nil_iff]
    intro p hp
    simp only [beq_iff_eq]
    intro hpv
    exact h (List.mem_map.mpr ⟨p, hp, hpv⟩)
  rw [hf]
  rfl

theorem getD_set_self_g {γ : Type} {l : List γ} {i : Nat} {v d : γ} (h : i < l.length) :
    (l.set i v).getD i d = v := by
  rw [List.getD_eq_getElem?_getD, List.getElem?_set_self]
  · rfl
  · exact h

theorem getD_set_ne_g {γ : Type} {l : List γ} {i j : Nat} {v d : γ} (h : i ≠ j) :
    (l.set i v).getD j d = l.getD j d := by
  rw [List.getD_eq_getElem?_getD, List.getElem?_set_ne h, ← List.getD_eq_getElem?_getD]

theorem keysOf_length_le : ∀ (rest done : List (Nat × Nat)),
    (keysOf done).length ≤ (keysOf (done ++ rest)).length := by
  intro rest
  induction rest with
  | nil => intro done; rw [List.append_nil]
  | cons r rest ih =>
    intro done
    have h1 : (keysOf done).length ≤ (keysOf (done ++ [r])).length := by
      rw [keysOf_snoc]
      by_cases hr : r.2 ∈ keysOf done
      · rw [if_pos hr]
      · rw [if_neg hr, List.length_append]
        omega
    have h2 := ih (done ++ [r])
    rw [List.append_assoc, List.singleton_append] at h2
    exact le_trans h1 h2

/-- Invariant of the `Database::from` construction loop: the map is the
first-appearance index of each seen k-mer, allocated indices hold exactly
the pushing files in order, unallocated slots are still empty. -/
theorem build_inv (T : Nat) : ∀ (pairs done : List (Nat × Nat))
    (st : (Nat → Option Nat) × Nat × List (List Nat)),
    st.2.1 = (keysOf done).length →
    (∀ v, st.1 v = firstIdx v (keysOf done)) →
    st.2.2.length = T →
    (∀ v i, firstIdx v (keysOf done) = some i → st.2.2.getD i [] = filesOf v done) →
    (∀ i, (keysOf done).length ≤ i → st.2.2.getD i [] = []) →
    (keysOf (done ++ pairs)).length ≤ T →
    ((pairs.foldl (fun st q => insertKmer q.1 st q.2) st).2.1 =
        (keysOf (done ++ pairs)).length ∧
      (∀ v, (pairs.foldl (fun st q => insertKmer q.1 st q.2) st).1 v =
        firstIdx v (keysOf (done ++ pairs))) ∧
      (pairs.foldl (fun st q => insertKmer q.1 st q.2) st).2.2.length = T ∧
      (∀ v i, firstIdx v (keysOf (done ++ pairs)) = some i →
        (pairs.foldl (fun st q => insertKmer q.1 st q.2) st).2.2.getD i [] =
          filesOf v (done ++ pairs)) ∧
      (∀ i, (keysOf (done ++ pairs)).length ≤ i →
        (pairs.foldl (fun st q => insertKmer q.1 st q.2) st).2.2.getD i [] = [])) := by
  intro pairs
  induction pairs with
  | nil =>
    intro done st h1 h2 h3 h4 h5 _
    rw [List.append_nil]
    exact ⟨h1, h2, h3, h4, h5⟩
  | cons q pairs ih =>
    intro done st h1 h2 h3 h4 h5 hT
    have hassoc : done ++ q :: pairs = (done ++ [q]) ++ pairs := by
      rw [List.append_assoc, List.singleton_append]
    rw [hassoc] at hT ⊢
    rw [List.foldl_cons]
    have hksT : (keysOf (done ++ [q])).length ≤ T :=
      le_trans (keysOf_length_le pairs (done ++ [q])) hT
    have hmono : (keysOf done).length ≤ (keysOf (done ++ [q])).length :=
      keysOf_length_le [q] done
    cases hlk : st.1 q.2 with
    | some idx =>
      have hfi : firstIdx q.2 (keysOf done) = some idx := by rw [← h2]; exact hlk
      have hmem : q.2 ∈ keysOf done := by
        by_contra hn
        rw [(firstIdx_none_iff q.2 (keysOf done)).mpr hn] at hfi
        cases hfi
      have hkeys : keysOf (done ++ [q]) = keysOf done := by
        rw [keysOf_snoc, if_pos hmem]
      have hidxlt : idx < (keysOf done).length := firstIdx_lt_length hfi
      have hstep : insertKmer q.1 st q.2 =
          (st.1, st.2.1, st.2.2.set idx (st.2.2.getD idx [] ++ [q.1])) := by
        rw [insertKmer, hlk]
      rw [hstep]
      refine ih (done ++ [q]) _ ?_ ?_ ?_ ?_ ?_ hT
      · rw [hkeys]; exact h1
      · intro v; rw [hkeys]; exact h2 v
      · rw [List.length_set]; exact h3
      · intro v i hv
        rw [hkeys] at hv
        by_cases hiv : i = idx
        · have hvq : v = q.2 := by
            refine firstIdx_inj ?_ hfi
            rw [← hiv]
            exact hv
          rw [hiv, hvq, getD_set_self_g (by rw [h3]; omega),
            h4 q.2 idx hfi, filesOf_snoc, if_pos rfl]
        · rw [getD_set_ne_g (fun he => hiv he.symm)]
          have hvq : v ≠ q.2 := by
            intro he
            subst he
            rw [hv] at hfi
            injection hfi with h0
            exact hiv h0
          rw [h4 v i hv, filesOf_snoc, if_neg (fun he => hvq he.symm), List.append_nil]
      · intro i hi
        rw [hkeys] at hi
        rw [getD_set_ne_g (by omega)]
        exact h5 i hi
    | none =>
      have hfi : firstIdx q.2 (keysOf done) = none := by rw [← h2]; exact hlk
      have hmem : q.2 ∉ keysOf done := (firstIdx_none_iff q.2 (keysOf done)).mp hfi
      have hkeys : keysOf (done ++ [q]) = keysOf done ++ [q.2] := by
        rw [keysOf_snoc, if_neg hmem]
      have hlen' : (keysOf (done ++ [q])).length = (keysOf done).length + 1 := by
        rw [hkeys, List.length_append]
        rfl
      have hnT : (keysOf done).length < T := by omega
      have hstep : insertKmer q.1 st q.2 =
          ((fun v => if v = q.2 then some st.2.1 else st.1 v), st.2.1 + 1,
            st.2.2.set st.2.1 (st.2.2.getD st.2.1 [] ++ [q.1])) := by
        rw [insertKmer, hlk]
      have hold : st.2.2.getD st.2.1 [] = [] := h5 st.2.1 (le_of_eq h1.symm)
      rw [hstep]
      refine ih (done ++ [q]) _ ?_ ?_ ?_ ?_ ?_ hT
      · rw [hlen', h1]
      · intro v
        show (if v = q.2 then some st.2.1 else st.1 v) = firstIdx v (keysOf (done ++ [q]))
        by_cases hv : v = q.2
        · rw [if_pos hv, hkeys, hv, firstIdx_append_self hmem, h1]
        · rw [if_neg hv, hkeys, firstIdx_append_ne hv (keysOf done)]
          exact h2 v
      · rw [List.length_set]; exact h3
      · intro v i hv
        rw [hkeys] at hv
        by_cases hvq : v = q.2
        · rw [hvq] at hv
          rw [firstIdx_append_self hmem] at hv
          have hi : i = (keysOf done).length := by
            injection hv with h0
            exact h0.symm
          rw [hvq, hi, ← h1, getD_set_self_g (by rw [h3, h1]; omega), hold,
            filesOf_snoc, if_pos rfl,
            filesOf_of_not_mem (fun hm => hmem ((mem_keysOf done q.2).mpr hm))]
        · rw [firstIdx_append_ne hvq (keysOf done)] at hv
          have hilt : i < (keysOf done).length := firstIdx_lt_length hv
          rw [getD_set_ne_g (by omega)]
          rw [h4 v i hv, filesOf_snoc, if_neg (fun he => hvq he.symm), List.append_nil]
      · intro i hi
        rw [hlen'] at hi
        rw [getD_set_ne_g (by omega)]
        exact h5 i (by omega)

theorem enumFrom_foldl_eq_pairs : ∀ (bitmaps : List (List Nat)) (off : Nat)
    (st : (Nat → Option Nat) × Nat × List (List Nat)),
    (bitmaps.enumFrom off).foldl (fun st pr => pr.2.foldl (insertKmer pr.1) st) st =
      (buildPairsFrom off bitmaps).foldl (fun st q => insertKmer q.1 st q.2) st := by
  intro bitmaps
  induction bitmaps with
  | nil => intro off st; rfl
  | cons bm rest ih =>
    intro off st
    rw [List.enumFrom_cons, List.foldl_cons, buildPairsFrom, List.foldl_append, ih]
    congr 1
    rw [List.foldl_map]

theorem buildNaive_eq_pairs (bitmaps : List (List Nat)) (T : Nat) :
    buildNaive bitmaps T = (buildPairs bitmaps).foldl (fun st q => insertKmer q.1 st q.2)
      ((fun _ => none), 0, List.replicate T []) := by
  rw [buildNaive]
  exact enumFrom_foldl_eq_pairs bitmaps 0 _

theorem replicate_getD_nil (T i : Nat) : (List.replicate T ([] : List Nat)).getD i [] = [] := by
  rcases Nat.lt_or_ge i T with hi | hi
  · rw [List.getD_eq_getElem?_getD, List.getElem?_eq_getElem (by simpa using hi)]
    simp
  · rw [List.getD_eq_getElem?_getD, List.getElem?_eq_none (by simpa using hi)]
    rfl

/-- The construction invariant instantiated at the start state. -/
theorem buildNaive_spec (bitmaps : List (List Nat)) (T : Nat)
    (hT : (keysOf (buildPairs bitmaps)).length ≤ T) :
    (buildNaive bitmaps T).2.1 = (keysOf (buildPairs bitmaps)).length ∧
      (∀ v, (buildNaive bitmaps T).1 v = firstIdx v (keysOf (buildPairs bitmaps))) ∧
      (buildNaive bitmaps T).2.2.length = T ∧
      (∀ v i, firstIdx v (keysOf (buildPairs bitmaps)) = some i →
        (buildNaive bitmaps T).2.2.getD i [] = filesOf v (buildPairs bitmaps)) ∧
      (∀ i, (keysOf (buildPairs bitmaps)).length ≤ i →
        (buildNaive bitmaps T).2.2.getD i [] = []) := by
  rw [buildNaive_eq_pairs]
  have h := build_inv T (buildPairs bitmaps) []
    ((fun _ => none), 0, List.replicate T []) rfl (fun v => rfl)
    (by simp) (by intro v i hv; cases hv) (fun i _ => replicate_getD_nil T i)
    (by rw [List.nil_append]; exact hT)
  rw [List.nil_append] at h
  exact h

theorem nodup_filter_beq {bm : List Nat} (h : bm.Nodup) (v : Nat) :
    bm.filter (fun w => w == v) = if v ∈ bm then [v] else [] := by
  induction bm with
  | nil => simp
  | cons b bm ih =>
    rw [List.nodup_cons] at h
    rw [List.filter_cons]
    by_cases hb : b = v
    · subst hb
      rw [show (b == b) = true from beq_self_eq_true b, if_pos rfl, ih h.2, if_neg h.1,
        if_pos (List.mem_cons_self b bm)]
    · rw [show (b == v) = false from beq_eq_false_iff_ne.mpr hb, if_neg (by simp), ih h.2]
      by_cases hv : v ∈ bm
      · rw [if_pos hv, if_pos (List.mem_cons_of_mem b hv)]
      · rw [if_neg hv, if_neg (by
          intro hm
          rcases List.mem_cons.mp hm with hm | hm
          · exact hb hm.symm
          · exact hv hm)]

theorem filesOf_append (v : Nat) (A B : List (Nat × Nat)) :
    filesOf v (A ++ B) = filesOf v A ++ filesOf v B := by
  rw [filesOf, List.filter_append, List.map_append, filesOf, filesOf]

theorem filesOf_map_pair {bm : List Nat} (h : bm.Nodup) (off v : Nat) :
    filesOf v (bm.map (fun w => (off, w))) = if v ∈ bm then [off] else [] := by
  rw [filesOf, List.filter_map, List.map_map]
  have hcomp : ((fun (p : Nat × Nat) => p.2 == v) ∘ (fun w => (off, w))) =
      (fun w => w == v) := rfl
  rw [hcomp, nodup_filter_beq h v]
  by_cases hv : v ∈ bm
  · rw [if_pos hv, if_pos hv]
    rfl
  · rw [if_neg hv, if_neg hv]
    rfl

theorem filesOf_buildPairsFrom (v : Nat) : ∀ (bitmaps : List (List Nat)) (off : Nat),
    (∀ bm ∈ bitmaps, bm.Nodup) →
    filesOf v (buildPairsFrom off bitmaps) =
      (List.range' off bitmaps.length).filter
        (fun i => decide (v ∈ bitmaps.getD (i - off) [])) := by
  intro bitmaps
  induction bitmaps with
  | nil => intro off _; rfl
  | cons bm rest ih =>
    intro off hnd
    rw [buildPairsFrom, filesOf_append,
      filesOf_map_pair (hnd bm (List.mem_cons_self bm rest)) off v,
      ih (off + 1) (fun b hb => hnd b (List.mem_cons_of_mem bm hb)),
      List.length_cons, List.range'_succ, List.filter_cons]
    have hhead : decide (v ∈ (bm :: rest).getD (off - off) []) = decide (v ∈ bm) := by
      rw [Nat.sub_self]
      rfl
    rw [hhead]
    have htail : (List.range' (off + 1) rest.length).filter
        (fun i => decide (v ∈ rest.getD (i - (off + 1)) [])) =
        (List.range' (off + 1) rest.length).filter
        (fun i => decide (v ∈ (bm :: rest).getD (i - off) [])) := by
      refine List.filter_congr ?_
      intro i hi
      have hb := List.mem_range'_1.mp hi
      have : (bm :: rest).getD (i - off) [] = rest.getD (i - (off + 1)) [] := by
        rw [show i - off = (i - (off + 1)) + 1 by omega]
        rfl
      rw [this]
    rw [← htail]
    by_cases hv : v ∈ bm
    · rw [if_pos hv, if_pos (show decide (v ∈ bm) = true by simpa using hv)]
      rfl
    · rw [if_neg hv, if_neg (show ¬ decide (v ∈ bm) = true by simpa using hv)]
      rfl

theorem filesOf_buildPairs (v : Nat) (bitmaps : List (List Nat))
    (hnd : ∀ bm ∈ bitmaps, bm.Nodup) :
    filesOf v (buildPairs bitmaps) =
      (List.range bitmaps.length).filter (fun i => decide (v ∈ bitmaps.getD i [])) := by
  rw [buildPairs, filesOf_buildPairsFrom v bitmaps 0 hnd, List.range_eq_range']
  refine List.filter_congr ?_
  intro i _
  rw [Nat.sub_zero]

theorem filesOf_buildPairs_sorted (v : Nat) (bitmaps : List (List Nat))
    (hnd : ∀ bm ∈ bitmaps, bm.Nodup) :
    List.Sorted (· < ·) (filesOf v (buildPairs bitmaps)) := by
  rw [filesOf_buildPairs v bitmaps hnd, List.range_eq_range']
  exact List.Pairwise.filter _ (List.pairwise_lt_range' 0 bitmaps.length)

theorem mem_buildPairsFrom_snd (v : Nat) : ∀ (bitmaps : List (List Nat)) (off : Nat),
    (v ∈ (buildPairsFrom off bitmaps).map Prod.snd ↔ ∃ bm ∈ bitmaps, v ∈ bm) := by
  intro bitmaps
  induction bitmaps with
  | nil => intro off; simp [buildPairsFrom]
  | cons bm rest ih =>
    intro off
    rw [buildPairsFrom, List.map_append, List.mem_append, List.map_map, ih]
    have : (Prod.snd ∘ fun w => (off, w)) = (id : Nat → Nat) := rfl
    rw [this, List.map_id]
    simp

theorem keysOf_nodup : ∀ done : List (Nat × Nat), (keysOf done).Nodup := by
  have haux : ∀ (done : List (Nat × Nat)) (ks : List Nat), ks.Nodup →
      (done.foldl (fun ks p => if p.2 ∈ ks then ks else ks ++ [p.2]) ks).Nodup := by
    intro done
    induction done with
    | nil => intro ks h; exact h
    | cons p done ih =>
      intro ks h
      rw [List.foldl_cons]
      by_cases hp : p.2 ∈ ks
      · rw [if_pos hp]; exact ih ks h
      · rw [if_neg hp]
        refine ih _ ?_
        rw [List.nodup_append]
        exact ⟨h, List.nodup_singleton _, by simpa using hp⟩
  intro done
  exact haux done [] List.nodup_nil

theorem firstIdx_of_nodup : ∀ {ks : List Nat}, ks.Nodup → ∀ {i : Nat}, i < ks.length →
    firstIdx (ks.getD i 0) ks = some i := by
  intro ks
  induction ks with
  | nil => intro _ i hi; simp at hi
  | cons k ks ih =>
    intro h i hi
    rw [List.nodup_cons] at h
    cases i with
    | zero =>
      show firstIdx k (k :: ks) = some 0
      rw [firstIdx, if_pos rfl]
    | succ i =>
      have hlt : i < ks.length := by simpa using hi
      have hmem : ks.getD i 0 ∈ ks := by
        rw [List.getD_eq_getElem?_getD, List.getElem?_eq_getElem hlt]
        exact List.getElem_mem hlt
      have hne : k ≠ ks.getD i 0 := fun he => h.1 (he ▸ hmem)
      show firstIdx ((k :: ks).getD (i + 1) 0) (k :: ks) = some (i + 1)
      have hgd : (k :: ks).getD (i + 1) 0 = ks.getD i 0 := rfl
      rw [hgd, firstIdx, if_neg hne, ih h.2 hlt]
      rfl

theorem filesOf_ne_nil {v : Nat} {done : List (Nat × Nat)}
    (h : v ∈ done.map Prod.snd) : filesOf v done ≠ [] := by
  rw [filesOf]
  intro hc
  rcases List.mem_map.mp h with ⟨p, hp, hpv⟩
  have hf : done.filter (fun q => q.2 == v) = [] := List.map_eq_nil_iff.mp hc
  have hmem : p ∈ done.filter (fun q => q.2 == v) :=
    List.mem_filter.mpr ⟨hp, beq_iff_eq.mpr hpv⟩
  rw [hf] at hmem
  cases hmem

theorem getD_map_toRle {l : List (List Nat)} {i : Nat} (h : i < l.length) :
    (l.map toRle).getD i [] = toRle (l.getD i []) := by
  rw [List.getD_eq_getElem?_getD, List.getElem?_map, List.getElem?_eq_getElem h,
    List.getD_eq_getElem?_getD, List.getElem?_eq_getElem h]
  rfl

theorem buildNaive_filter_eq_take (bitmaps : List (List Nat)) (T : Nat)
    (hT : (keysOf (buildPairs bitmaps)).length ≤ T) :
    (buildNaive bitmaps T).2.2.filter (fun l => !l.isEmpty) =
      (buildNaive bitmaps T).2.2.take (keysOf (buildPairs bitmaps)).length := by
  obtain ⟨h1, h2, h3, h4, h5⟩ := buildNaive_spec bitmaps T hT
  conv_lhs => rw [← List.take_append_drop (keysOf (buildPairs bitmaps)).length
    (buildNaive bitmaps T).2.2]
  rw [List.filter_append]
  have hfilt1 : ((buildNaive bitmaps T).2.2.take (keysOf (buildPairs bitmaps)).length).filter
      (fun l => !l.isEmpty) =
      (buildNaive bitmaps T).2.2.take (keysOf (buildPairs bitmaps)).length := by
    rw [List.filter_eq_self]
    intro a ha
    rcases List.mem_iff_getElem.mp ha with ⟨i, hilen, hgeti⟩
    rw [List.getElem_take] at hgeti
    have hin : i < (keysOf (buildPairs bitmaps)).length := by
      rw [List.length_take] at hilen
      exact lt_of_lt_of_le hilen (min_le_left _ _)
    have hiL : i < (buildNaive bitmaps T).2.2.length := by
      rw [List.length_take] at hilen
      exact lt_of_lt_of_le hilen (min_le_right _ _)
    have hgd : (buildNaive bitmaps T).2.2.getD i [] = a := by
      rw [List.getD_eq_getElem?_getD, List.getElem?_eq_getElem hiL, hgeti]
      rfl
    have hfi := firstIdx_of_nodup (keysOf_nodup (buildPairs bitmaps)) hin
    have hval := h4 _ i hfi
    rw [hgd] at hval
    have hmemK : (keysOf (buildPairs bitmaps)).getD i 0 ∈ keysOf (buildPairs bitmaps) := by
      rw [List.getD_eq_getElem?_getD, List.getElem?_eq_getElem hin]
      exact List.getElem_mem hin
    have hne : a ≠ [] := by
      rw [hval]
      exact filesOf_ne_nil ((mem_keysOf _ _).mp hmemK)
    simp [List.isEmpty_iff, hne]
  have hfilt2 : ((buildNaive bitmaps T).2.2.drop (keysOf (buildPairs bitmaps)).length).filter
      (fun l => !l.isEmpty) = [] := by
    rw [List.filter_eq_nil_iff]
    intro a ha
    rcases List.mem_iff_getElem.mp ha with ⟨i, hilen, hgeti⟩
    rw [List.getElem_drop] at hgeti
    have hiL : (keysOf (buildPairs bitmaps)).length + i <
        (buildNaive bitmaps T).2.2.length := by
      rw [List.length_drop] at hilen
      omega
    have hgd : (buildNaive bitmaps T).2.2.getD
        ((keysOf (buildPairs bitmaps)).length + i) [] = a := by
      rw [List.getD_eq_getElem?_getD, List.getElem?_eq_getElem hiL, hgeti]
      rfl
    have hnil := h5 ((keysOf (buildPairs bitmaps)).length + i) (by omega)
    rw [hgd] at hnil
    simp [hnil]
  rw [hfilt1, hfilt2, List.append_nil]

/-- `Database::from` is correct: every k-mer occurring in some bitmap is
mapped to an RLE whose set positions are exactly the files containing it
(in ascending order), and absent k-mers are not in the map. -/
theorem databaseFrom_spec (bitmaps : List (List Nat)) (T : Nat)
    (hnd : ∀ bm ∈ bitmaps, bm.Nodup)
    (hT : (keysOf (buildPairs bitmaps)).length ≤ T) :
    (∀ v, (∃ bm ∈ bitmaps, v ∈ bm) →
      ∃ idx, (databaseFrom bitmaps T).1 v = some idx ∧
        idx < (databaseFrom bitmaps T).2.length ∧
        collectIndices ((databaseFrom bitmaps T).2.getD idx []) =
          (List.range bitmaps.length).filter (fun i => decide (v ∈ bitmaps.getD i []))) ∧
    (∀ v, (∀ bm ∈ bitmaps, v ∉ bm) → (databaseFrom bitmaps T).1 v = none) := by
  obtain ⟨h1, h2, h3, h4, h5⟩ := buildNaive_spec bitmaps T hT
  have hfil := buildNaive_filter_eq_take bitmaps T hT
  have hlen2 : (databaseFrom bitmaps T).2.length = (keysOf (buildPairs bitmaps)).length := by
    show (((buildNaive bitmaps T).2.2.filter (fun l => !l.isEmpty)).map toRle).length =
      (keysOf (buildPairs bitmaps)).length
    rw [List.length_map, hfil, List.length_take, h3]
    omega
  constructor
  · rintro v ⟨bm, hbm, hvbm⟩
    have hvK : v ∈ keysOf (buildPairs bitmaps) :=
      (mem_keysOf _ _).mpr ((mem_buildPairsFrom_snd v bitmaps 0).mpr ⟨bm, hbm, hvbm⟩)
    obtain ⟨idx, hidx⟩ : ∃ idx, firstIdx v (keysOf (buildPairs bitmaps)) = some idx := by
      cases hf : firstIdx v (keysOf (buildPairs bitmaps)) with
      | none => exact absurd hvK ((firstIdx_none_iff _ _).mp hf)
      | some i => exact ⟨i, rfl⟩
    have hidxlt : idx < (keysOf (buildPairs bitmaps)).length := firstIdx_lt_length hidx
    refine ⟨idx, ?_, ?_, ?_⟩
    · show (buildNaive bitmaps T).1 v = some idx
      rw [h2 v, hidx]
    · rw [hlen2]
      exact hidxlt
    · show collectIndices ((((buildNaive bitmaps T).2.2.filter
        (fun l => !l.isEmpty)).map toRle).getD idx []) = _
      rw [hfil, getD_map_toRle (by rw [List.length_take, h3]; omega)]
      have htake : ((buildNaive bitmaps T).2.2.take
          (keysOf (buildPairs bitmaps)).length).getD idx [] =
          (buildNaive bitmaps T).2.2.getD idx [] := by
        have hidxL : idx < (buildNaive bitmaps T).2.2.length := by rw [h3]; omega
        rw [List.getD_eq_getElem?_getD,
          List.getElem?_eq_getElem (by rw [List.length_take, h3]; omega),
          List.getD_eq_getElem?_getD, List.getElem?_eq_getElem hidxL]
        rw [List.getElem_take]
      rw [htake, h4 v idx hidx,
        collectIndices_toRle (filesOf_buildPairs_sorted v bitmaps hnd),
        filesOf_buildPairs v bitmaps hnd]
  · intro v hv
    have hnK : v ∉ keysOf (buildPairs bitmaps) := by
      intro hm
      rcases (mem_buildPairsFrom_snd v bitmaps 0).mp ((mem_keysOf _ _).mp hm) with
        ⟨bm, hbm, hvb⟩
      exact hv bm hbm hvb
    show (buildNaive bitmaps T).1 v = none
    rw [h2 v, (firstIdx_none_iff _ _).mpr hnK]

/-! ### Pairwise distances (skim-pairwise-distances.rs, extend-distances.rs) -/

/-- One row of the lower-triangle distance matrix: `bitmaps[..=i1]`
enumerated, `0` on the diagonal, `|A| + |B| - 2|A ∩ B|` (computed in `u64`,
stored `as u32`) off it. -/
def pairwiseRow (bitmaps : List (Finset ℕ)) (i1 : Nat) (b1 : Finset ℕ) : List Nat :=
  ((bitmaps.take (i1 + 1)).enum).map (fun pr =>
    if i1 = pr.1 then 0
    else (b1.card + pr.2.card - 2 * (b1 ∩ pr.2).card) % 2 ^ 32)

/-- The distance-matrix computation of skim-pairwise-distances.rs. -/
def pairwise_distances (bitmaps : List (Finset ℕ)) : List (List Nat) :=
  bitmaps.enum.map (fun pr => pairwiseRow bitmaps pr.1 pr.2)

/-- The extension computation of extend-distances.rs: rows for indices below
`oldLen` are skipped, the rest are recomputed over all bitmaps, and the
result is appended to the old matrix. -/
def extend_distances (oldDistances : List (List Nat)) (oldLen : Nat)
    (allBitmaps : List (Finset ℕ)) : List (List Nat) :=
  oldDistances ++ (allBitmaps.enum.filterMap (fun pr =>
    if pr.1 < oldLen then none
    else some (pairwiseRow allBitmaps pr.1 pr.2)))

theorem enumFrom_filterMap_ge {α β : Type} (f : Nat × α → β) :
    ∀ (l : List α) (off m : Nat),
    (l.enumFrom off).filterMap (fun pr => if pr.1 < m then none else some (f pr)) =
      ((l.enumFrom off).drop (m - off)).map f := by
  intro l
  induction l with
  | nil => intro off m; simp
  | cons x l ih =>
    intro off m
    rw [List.enumFrom_cons, List.filterMap_cons]
    by_cases hoff : off < m
    · rw [if_pos hoff, ih (off + 1) m,
        show m - off = (m - (off + 1)) + 1 by omega, List.drop_succ_cons]
    · rw [if_neg hoff, ih (off + 1) m, show m - off = 0 by omega, List.drop_zero,
        show m - (off + 1) = 0 by omega, List.drop_zero, List.map_cons]

/-- The extension is the old matrix followed by the rows of the full
recomputation from `oldLen` on. -/
theorem extend_distances_eq (oldDistances : List (List Nat)) (oldLen : Nat)
    (allBitmaps : List (Finset ℕ)) :
    extend_distances oldDistances oldLen allBitmaps =
      oldDistances ++ (pairwise_distances allBitmaps).drop oldLen := by
  rw [extend_distances, pairwise_distances]
  congr 1
  rw [← List.map_drop]
  have h := enumFrom_filterMap_ge (fun pr : Nat × Finset ℕ =>
    pairwiseRow allBitmaps pr.1 pr.2) allBitmaps 0 oldLen
  rw [Nat.sub_zero] at h
  exact h

theorem pairwise_distances_length (bitmaps : List (Finset ℕ)) :
    (pairwise_distances bitmaps).length = bitmaps.length := by
  rw [pairwise_distances, List.length_map, List.enum_length]

theorem pairwise_distances_getD (bitmaps : List (Finset ℕ)) {i : Nat}
    (h : i < bitmaps.length) :
    (pairwise_distances bitmaps).getD i [] = pairwiseRow bitmaps i (bitmaps.getD i ∅) := by
  rw [pairwise_distances, List.getD_eq_getElem?_getD, List.getElem?_map, List.getElem?_enum,
    List.getElem?_eq_getElem h, List.getD_eq_getElem?_getD, List.getElem?_eq_getElem h]
  rfl

theorem pairwiseRow_length (bitmaps : List (Finset ℕ)) (i1 : Nat) (b1 : Finset ℕ)
    (h : i1 < bitmaps.length) : (pairwiseRow bitmaps i1 b1).length = i1 + 1 := by
  rw [pairwiseRow, List.length_map, List.enum_length, List.length_take]
  omega

theorem pairwiseRow_getD {bitmaps : List (Finset ℕ)} {i1 : Nat} (b1 : Finset ℕ)
    {j : Nat} (hj : j ≤ i1) (h : i1 < bitmaps.length) :
    (pairwiseRow bitmaps i1 b1).getD j 0 =
      if i1 = j then 0
      else (b1.card + (bitmaps.getD j ∅).card -
        2 * (b1 ∩ bitmaps.getD j ∅).card) % 2 ^ 32 := by
  have hjt : j < (bitmaps.take (i1 + 1)).length := by
    rw [List.length_take]
    omega
  have hjb : j < bitmaps.length := by omega
  rw [pairwiseRow, List.getD_eq_getElem?_getD, List.getElem?_map, List.getElem?_enum,
    List.getElem?_eq_getElem hjt]
  have hval : (bitmaps.take (i1 + 1))[j] = bitmaps.getD j ∅ := by
    rw [List.getElem_take, List.getD_eq_getElem?_getD, List.getElem?_eq_getElem hjb]
    rfl
  rw [hval]
  rfl

/-- The candidate list of a full `classify` run, in index form. -/
theorem classifyCandidates_mem' (db : Database) (read : List Nat) (lut : List ℚ)
    (nMax : Nat) (hp : db.pValues.length = db.numFiles) (i : Nat) (q : ℚ) :
    ((i, q) ∈ classifyCandidates db lut nMax (classifyCounts db read).1
      (classifyCounts db read).2) ↔
      (i < db.numFiles ∧ specPasses db read i ∧ q = specProb db read nMax lut i) := by
  rw [classifyCandidates_mem, classifyCounts_fst_length, hp, specPasses, specProb]
  tauto

/-! ## The claims -/

/-- C2 (amended): `should_compress` agrees with the spec's per-level rule
only under the additional guard `run_reduction ≥ 1`; the code's rule is
exactly `1 ≤ run_reduction ∧ spec rule`. -/
theorem claim_C2 (level setBits runReduction : Nat) :
    shouldCompress level setBits runReduction =
      (decide (1 ≤ runReduction) && specCompressRule level setBits runReduction) := by
  have hsc : shouldCompress level setBits runReduction =
      if runReduction < 1 then false
      else specCompressRule level setBits runReduction := by
    rcases level with _ | _ | _ | _ | n <;> rfl
  rw [hsc]
  by_cases hr : runReduction < 1
  · have hd : decide (1 ≤ runReduction) = false := decide_eq_false (by omega)
    rw [if_pos hr, hd, Bool.false_and]
  · have hd : decide (1 ≤ runReduction) = true := decide_eq_true (by omega)
    rw [if_neg hr, hd, Bool.true_and]

/-- C2 counterexample: at level 2 with one set bit and no run reduction the
spec's rule (as claim C2 words it) fires but the code's `should_compress`
does not, and the lossy pass leaves such an RLE unchanged.  The block list
is reachable: it decodes to the single set position 16380. -/
theorem claim_C2_counterexample :
    specCompressRule 2 1 0 = true ∧ shouldCompress 2 1 0 = false ∧
    collectIndices [Block.zeros 16380, Block.uncompressed 1] = [16380] ∧
    lossyCompressRle 2 [Block.zeros 16380, Block.uncompressed 1] =
      [Block.zeros 16380, Block.uncompressed 1] ∧
    toRle [16380] = [Block.zeros 16380, Block.uncompressed 1] := by
  refine ⟨rfl, rfl, by decide, by decide, ?_⟩
  rw [toRle, toRleFrom, if_neg (by decide)]
  simp only [List.takeWhile_nil, List.dropWhile_nil]
  rw [toRleFrom, zerosBlocks, if_neg (by decide), if_pos (by decide),
    show uncompressedBits 16380 [16380] = 1 from by decide]
  norm_num

/-- C4: iterating the canonical k-mer iterator over a sequence and over its
reverse complement yields the same multiset of canonical k-mer values. -/
theorem claim_C4 (seq : List Nat) (k : Nat) (sync : Option (Nat × Nat)) (hk : 1 ≤ k) :
    (canonicalKmerIterEmits (revComp seq) k sync).Perm
      (canonicalKmerIterEmits seq k sync) := by
  rw [canonicalKmerIterEmits.eq_def, canonicalKmerIterEmits.eq_def]
  cases sync with
  | some st =>
    obtain ⟨s1, t1⟩ := st
    show (kmerIterEmits (revComp seq) k true s1 t1).Perm (kmerIterEmits seq k true s1 t1)
    rw [kmerIterEmits_eq_specEmits _ _ _ _ _ hk, kmerIterEmits_eq_specEmits _ _ _ _ _ hk]
    exact specEmits_revComp_perm k s1 t1 seq
  | none =>
    show (kmerIterEmits (revComp seq) k true k 0).Perm (kmerIterEmits seq k true k 0)
    rw [kmerIterEmits_eq_specEmits _ _ _ _ _ hk, kmerIterEmits_eq_specEmits _ _ _ _ _ hk]
    exact specEmits_revComp_perm k k 0 seq

theorem claim_C4_witness :
    1 ≤ 2 ∧ (canonicalKmerIterEmits (revComp [65, 67, 71]) 2 none).Perm
      (canonicalKmerIterEmits [65, 67, 71] 2 none) :=
  ⟨by decide, claim_C4 [65, 67, 71] 2 none (by decide)⟩

/-- C5: pushing an ascending position sequence into a naive RLE, compressing
with `to_rle`, and decoding with `collect_indices` returns the original
sequence. -/
theorem claim_C5 {l : List Nat} (hs : List.Sorted (· < ·) l) :
    collectIndices (toRle l) = l :=
  collectIndices_toRle hs

theorem claim_C5_witness :
    List.Sorted (· < ·) [0, 8, 64, 65] ∧
      collectIndices (toRle [0, 8, 64, 65]) = [0, 8, 64, 65] :=
  ⟨by decide, claim_C5 (by decide)⟩

/-- C6: every recomputed p-value after the lossy pass is at most the
recomputed p-value before it: the pass only removes set bits, the k-mer
total is unchanged, and the division is monotone. -/
theorem claim_C6 (level kmerLen : Nat) (sync : Option (Nat × Nat)) (numFiles : Nat)
    (rles : List (List Block)) (i : Nat) :
    (recompute_p_values kmerLen sync numFiles (lossy_compression level rles)).getD i 0 ≤
      (recompute_p_values kmerLen sync numFiles rles).getD i 0 :=
  recompute_p_values_lossy_le level kmerLen sync numFiles rles i

/-- C9: the k-mer iterator never emits the same value twice in a row — every
emission differs from the immediately preceding one. -/
theorem claim_C9 (seq : List Nat) (k : Nat) (sync : Option (Nat × Nat)) :
    List.Chain' (· ≠ ·) (canonicalKmerIterEmits seq k sync) := by
  rw [canonicalKmerIterEmits.eq_def]
  cases sync with
  | some st =>
    obtain ⟨s1, t1⟩ := st
    exact (kmerEmits_adjacent k s1 t1 true seq (IterMode.scan 0 0) none).1
  | none =>
    exact (kmerEmits_adjacent k k 0 true seq (IterMode.scan 0 0) none).1

/-- C3: after `Database::from`, under the claim's assumption that the number
of distinct k-mers across all bitmaps fits in the allocation, every k-mer
occurring in some bitmap is in `kmer_to_rle_index`, its RLE decodes to
exactly the set of files containing it, the index is in bounds of the
filtered `rles` (so dropping empty naive RLEs shifts nothing), and k-mers in
no bitmap are absent from the map. -/
theorem claim_C3 (bitmaps : List (List Nat)) (totalKmers : Nat)
    (hnd : ∀ bm ∈ bitmaps, bm.Nodup)
    (hT : (keysOf (buildPairs bitmaps)).length ≤ totalKmers) :
    (∀ v, (∃ bm ∈ bitmaps, v ∈ bm) →
      ∃ idx, (databaseFrom bitmaps totalKmers).1 v = some idx ∧
        idx < (databaseFrom bitmaps totalKmers).2.length ∧
        collectIndices ((databaseFrom bitmaps totalKmers).2.getD idx []) =
          (List.range bitmaps.length).filter (fun i => decide (v ∈ bitmaps.getD i []))) ∧
    (∀ v, (∀ bm ∈ bitmaps, v ∉ bm) → (databaseFrom bitmaps totalKmers).1 v = none) :=
  databaseFrom_spec bitmaps totalKmers hnd hT

theorem claim_C3_witness :
    (∀ bm ∈ [[1, 3], [3]], List.Nodup bm) ∧
    (keysOf (buildPairs [[1, 3], [3]])).length ≤ 4 ∧
    ((∀ v, (∃ bm ∈ [[1, 3], [3]], v ∈ bm) →
      ∃ idx, (databaseFrom [[1, 3], [3]] 4).1 v = some idx ∧
        idx < (databaseFrom [[1, 3], [3]] 4).2.length ∧
        collectIndices ((databaseFrom [[1, 3], [3]] 4).2.getD idx []) =
          (List.range 2).filter (fun i => decide (v ∈ [[1, 3], [3]].getD i []))) ∧
    (∀ v, (∀ bm ∈ [[1, 3], [3]], v ∉ bm) → (databaseFrom [[1, 3], [3]] 4).1 v = none)) :=
  ⟨by decide, by decide, claim_C3 [[1, 3], [3]] 4 (by decide) (by decide)⟩

/-- C7: an empty read, a read of only invalid bases, or a read shorter than
the k-mer length leaves `n_total = 0` and all `num_hits` at zero, and
`classify` returns `None` without failing. -/
theorem claim_C7 (db : Database) (read : List Nat) (cutoff : ℚ) (nMax : Nat)
    (lut : List ℚ) (hk : 1 ≤ db.kmerLen)
    (h : read.length < db.kmerLen ∨ ∀ c ∈ read, validByte c = false) :
    classifyCounts db read = (List.replicate db.numFiles 0, 0) ∧
      classify db read cutoff nMax lut = none := by
  have hc := classifyCounts_degenerate hk h
  refine ⟨hc, ?_⟩
  have hmb : min_by (classifyCandidates db lut nMax (classifyCounts db read).1
      (classifyCounts db read).2) = none := by
    rw [hc]
    show min_by (classifyCandidates db lut nMax (List.replicate db.numFiles 0) 0) = none
    rw [classifyCandidates_degenerate]
    rfl
  have hgen : ∀ cands : List (Nat × ℚ), min_by cands = none →
      (match min_by cands with
        | some (lowestProbIndex, lowestProb) =>
          if lowestProb < cutoff then
            some (db.files.getD lowestProbIndex "", db.taxIds.getD lowestProbIndex 0)
          else none
        | none => none) = (none : Option (String × Nat)) := by
    intro cands hcand
    rw [hcand]
  exact hgen _ hmb

/-- C10: with RLEs that decode to in-range file indices without repetition,
`classify` stays in bounds: `num_hits` has `num_files` slots, no hit count
exceeds `n_total`, and every candidate's index, scaled hit count `x`, and
lookup position are within their arrays. -/
theorem claim_C10 (db : Database) (read : List Nat) (nMax : Nat) (lut : List ℚ)
    (hpos : ∀ rle ∈ db.rles, ∀ p ∈ collectIndices rle, p < db.numFiles)
    (hnd : ∀ rle ∈ db.rles, (collectIndices rle).Nodup) :
    (classifyCounts db read).1.length = db.numFiles ∧
    (∀ i, (classifyCounts db read).1.getD i 0 ≤ (classifyCounts db read).2) ∧
    (∀ pr ∈ classifyCandidates db lut nMax (classifyCounts db read).1
        (classifyCounts db read).2,
      pr.1 < db.numFiles ∧
      roundQ (((classifyCounts db read).1.getD pr.1 0 : ℚ) * (nMax : ℚ) /
        ((classifyCounts db read).2 : ℚ)) ≤ nMax ∧
      pr.1 * (nMax + 1) + roundQ (((classifyCounts db read).1.getD pr.1 0 : ℚ) *
        (nMax : ℚ) / ((classifyCounts db read).2 : ℚ)) < db.numFiles * (nMax + 1)) := by
  refine ⟨classifyCounts_fst_length db read, classifyCounts_hits_le db read hnd, ?_⟩
  rintro ⟨i, q⟩ hmem
  obtain ⟨hi1, hi2, hcond, hq⟩ :=
    (classifyCandidates_mem db lut nMax _ _ i q).mp hmem
  have hiF : i < db.numFiles := by
    rw [classifyCounts_fst_length] at hi1
    exact hi1
  have hhits : (classifyCounts db read).1.getD i 0 ≤ (classifyCounts db read).2 :=
    classifyCounts_hits_le db read hnd i
  have hTpos : 1 ≤ (classifyCounts db read).2 := by
    by_contra hzero
    have h0 : (classifyCounts db read).2 = 0 := by omega
    have h0' : (classifyCounts db read).1.getD i 0 = 0 := by omega
    rw [h0, h0'] at hcond
    push_cast at hcond
    simp at hcond
  have hx : roundQ (((classifyCounts db read).1.getD i 0 : ℚ) * (nMax : ℚ) /
      ((classifyCounts db read).2 : ℚ)) ≤ nMax := roundQ_scaled_le hhits hTpos
  refine ⟨hiF, hx, ?_⟩
  have hexp : (i + 1) * (nMax + 1) = i * (nMax + 1) + (nMax + 1) := by ring
  have hmul : (i + 1) * (nMax + 1) ≤ db.numFiles * (nMax + 1) :=
    Nat.mul_le_mul_right _ hiF
  show i * (nMax + 1) + roundQ (((classifyCounts db read).1.getD i 0 : ℚ) *
    (nMax : ℚ) / ((classifyCounts db read).2 : ℚ)) < db.numFiles * (nMax + 1)
  omega

theorem getD_mem_finset {l : List (Finset ℕ)} {i : Nat} (h : i < l.length) :
    l.getD i ∅ ∈ l := by
  rw [List.getD_eq_getElem?_getD, List.getElem?_eq_getElem h]
  exact List.getElem_mem h

/-- C8: the pairwise-distance matrix is lower triangular with zero diagonal
and symmetric-difference cardinalities below it (whenever those fit in
`u32`, which the `as u32` store requires), and the extension binary keeps
the old matrix as a prefix and appends exactly the rows from `old_len` on of
the full recomputation. -/
theorem claim_C8 (bitmaps : List (Finset ℕ))
    (hsmall : ∀ A ∈ bitmaps, ∀ B ∈ bitmaps,
      A.card + B.card - 2 * (A ∩ B).card < 2 ^ 32) :
    (pairwise_distances bitmaps).length = bitmaps.length ∧
    (∀ i, i < bitmaps.length →
      ((pairwise_distances bitmaps).getD i []).length = i + 1 ∧
      ((pairwise_distances bitmaps).getD i []).getD i 0 = 0 ∧
      (∀ j, j < i →
        ((pairwise_distances bitmaps).getD i []).getD j 0 =
          (bitmaps.getD i ∅).card + (bitmaps.getD j ∅).card -
            2 * ((bitmaps.getD i ∅) ∩ bitmaps.getD j ∅).card)) ∧
    (∀ (oldDistances : List (List Nat)) (oldLen : Nat) (allBitmaps : List (Finset ℕ)),
      extend_distances oldDistances oldLen allBitmaps =
        oldDistances ++ (pairwise_distances allBitmaps).drop oldLen) := by
  refine ⟨pairwise_distances_length bitmaps, ?_,
    fun oldD oldLen all => extend_distances_eq oldD oldLen all⟩
  intro i hi
  rw [pairwise_distances_getD bitmaps hi]
  refine ⟨pairwiseRow_length bitmaps i _ hi, ?_, ?_⟩
  · rw [pairwiseRow_getD _ (le_refl i) hi, if_pos rfl]
  · intro j hj
    rw [pairwiseRow_getD _ (le_of_lt hj) hi, if_neg (by omega)]
    exact Nat.mod_eq_of_lt
      (hsmall _ (getD_mem_finset hi) _ (getD_mem_finset (by omega)))

theorem claim_C8_witness :
    (∀ A ∈ [{0}, {0, 1}], ∀ B ∈ ([{0}, {0, 1}] : List (Finset ℕ)),
      A.card + B.card - 2 * (A ∩ B).card < 2 ^ 32) ∧
    ((pairwise_distances [{0}, {0, 1}]).length = 2 ∧
    (∀ i, i < ([{0}, {0, 1}] : List (Finset ℕ)).length →
      ((pairwise_distances [{0}, {0, 1}]).getD i []).length = i + 1 ∧
      ((pairwise_distances [{0}, {0, 1}]).getD i []).getD i 0 = 0 ∧
      (∀ j, j < i →
        ((pairwise_distances [{0}, {0, 1}]).getD i []).getD j 0 =
          (([{0}, {0, 1}] : List (Finset ℕ)).getD i ∅).card +
            (([{0}, {0, 1}] : List (Finset ℕ)).getD j ∅).card -
            2 * ((([{0}, {0, 1}] : List (Finset ℕ)).getD i ∅) ∩
              ([{0}, {0, 1}] : List (Finset ℕ)).getD j ∅).card)) ∧
    (∀ (oldDistances : List (List Nat)) (oldLen : Nat) (allBitmaps : List (Finset ℕ)),
      extend_distances oldDistances oldLen allBitmaps =
        oldDistances ++ (pairwise_distances allBitmaps).drop oldLen)) :=
  ⟨by decide, claim_C8 [{0}, {0, 1}] (by decide)⟩

theorem classify_eq_match (db : Database) (read : List Nat) (cutoff : ℚ) (nMax : Nat)
    (lut : List ℚ) :
    classify db read cutoff nMax lut =
      (match min_by (classifyCandidates db lut nMax (classifyCounts db read).1
        (classifyCounts db read).2) with
      | some (lowestProbIndex, lowestProb) =>
        if lowestProb < cutoff then
          some (db.files.getD lowestProbIndex "", db.taxIds.getD lowestProbIndex 0)
        else none
      | none => none) := rfl

/-- C1: `classify` returns `Some((files[i], tax_ids[i]))` exactly when some
file `i` passes the hit filter, its fetched probability is strictly below
the cutoff, it attains the minimum fetched probability over all passing
files, and it is the smallest index attaining it; otherwise it returns
`None`. -/
theorem claim_C1 (db : Database) (read : List Nat) (cutoff : ℚ) (nMax : Nat)
    (lut : List ℚ) (hp : db.pValues.length = db.numFiles) (result : String × Nat) :
    classify db read cutoff nMax lut = some result ↔
      ∃ i, i < db.numFiles ∧ specPasses db read i ∧
        specProb db read nMax lut i < cutoff ∧
        (∀ j, j < db.numFiles → specPasses db read j →
          specProb db read nMax lut i ≤ specProb db read nMax lut j) ∧
        (∀ j, j < i → specPasses db read j →
          specProb db read nMax lut i < specProb db read nMax lut j) ∧
        result = (db.files.getD i "", db.taxIds.getD i 0) := by
  have hpw := classifyCandidates_pairwise db lut nMax (classifyCounts db read).1
    (classifyCounts db read).2
  have huniq := classifyCandidates_uniq db lut nMax (classifyCounts db read).1
    (classifyCounts db read).2
  have hmem := classifyCandidates_mem' db read lut nMax hp
  cases hmb : min_by (classifyCandidates db lut nMax (classifyCounts db read).1
      (classifyCounts db read).2) with
  | none =>
    rw [classify_eq_match, hmb]
    constructor
    · intro h
      cases h
    · rintro ⟨i, hi, hpass, hcut, hmin, hbefore, hres⟩
      exfalso
      have hin : (i, specProb db read nMax lut i) ∈ classifyCandidates db lut nMax
          (classifyCounts db read).1 (classifyCounts db read).2 :=
        (hmem i _).mpr ⟨hi, hpass, rfl⟩
      rw [(min_by_eq_none_iff _).mp hmb] at hin
      cases hin
  | some b =>
    obtain ⟨b1, b2⟩ := b
    have hred : (match (some (b1, b2) : Option (Nat × ℚ)) with
      | some (lowestProbIndex, lowestProb) =>
        if lowestProb < cutoff then
          some (db.files.getD lowestProbIndex "", db.taxIds.getD lowestProbIndex 0)
        else none
      | none => none) =
      (if b2 < cutoff then some (db.files.getD b1 "", db.taxIds.getD b1 0) else none) := rfl
    rw [classify_eq_match, hmb, hred]
    obtain ⟨hbmem, hbmin, hbbefore⟩ := min_by_forward hpw hmb
    obtain ⟨hbF, hbpass, hbprob⟩ := (hmem b1 b2).mp hbmem
    constructor
    · intro h
      by_cases hcut : b2 < cutoff
      · rw [if_pos hcut] at h
        have hres : result = (db.files.getD b1 "", db.taxIds.getD b1 0) := by
          injection h with h1
          exact h1.symm
        refine ⟨b1, hbF, hbpass, ?_, ?_, ?_, hres⟩
        · rw [← hbprob]
          exact hcut
        · intro j hj hpassj
          have hjin : (j, specProb db read nMax lut j) ∈ classifyCandidates db lut nMax
              (classifyCounts db read).1 (classifyCounts db read).2 :=
            (hmem j _).mpr ⟨hj, hpassj, rfl⟩
          have hle := hbmin _ hjin
          rw [← hbprob]
          exact hle
        · intro j hj hpassj
          have hjF : j < db.numFiles := lt_trans hj hbF
          have hjin : (j, specProb db read nMax lut j) ∈ classifyCandidates db lut nMax
              (classifyCounts db read).1 (classifyCounts db read).2 :=
            (hmem j _).mpr ⟨hjF, hpassj, rfl⟩
          have hlt := hbbefore _ hjin hj
          rw [← hbprob]
          exact hlt
      · rw [if_neg hcut] at h
        cases h
    · rintro ⟨i, hi, hpass, hcut, hmin, hbefore, hres⟩
      have hib : min_by (classifyCandidates db lut nMax (classifyCounts db read).1
          (classifyCounts db read).2) = some (i, specProb db read nMax lut i) := by
        refine (min_by_iff hpw huniq _).mpr ⟨(hmem i _).mpr ⟨hi, hpass, rfl⟩, ?_, ?_⟩
        · rintro ⟨j, qj⟩ hyin
          obtain ⟨hjF, hjpass, hjq⟩ := (hmem j qj).mp hyin
          show specProb db read nMax lut i ≤ qj
          rw [hjq]
          exact hmin j hjF hjpass
        · rintro ⟨j, qj⟩ hyin hlt
          obtain ⟨hjF, hjpass, hjq⟩ := (hmem j qj).mp hyin
          show specProb db read nMax lut i < qj
          rw [hjq]
          exact hbefore j hlt hjpass
      rw [hmb] at hib
      have hbeq : (b1, b2) = (i, specProb db read nMax lut i) := by
        injection hib with h1
      have hb1 : b1 = i := congrArg Prod.fst hbeq
      have hb2 : b2 = specProb db read nMax lut i := congrArg Prod.snd hbeq
      rw [hb1, hb2, if_pos hcut, hres]

/-- A small concrete database used by the witnesses. -/
def dbW : Database :=
  ⟨[ "f0", "f1"], 3, (fun v => if v = 6 then some 0 else none), [1 / 4, 1 / 2],
    [[Block.ones 1]], none, [101, 102]⟩

theorem claim_C1_witness :
    dbW.pValues.length = dbW.numFiles ∧
    (classify dbW [] 1 2 [1, 1, 1, 1, 1, 1] = some ( "f0", 101) ↔
      ∃ i, i < dbW.numFiles ∧ specPasses dbW [] i ∧
        specProb dbW [] 2 [1, 1, 1, 1, 1, 1] i < 1 ∧
        (∀ j, j < dbW.numFiles → specPasses dbW [] j →
          specProb dbW [] 2 [1, 1, 1, 1, 1, 1] i ≤
            specProb dbW [] 2 [1, 1, 1, 1, 1, 1] j) ∧
        (∀ j, j < i → specPasses dbW [] j →
          specProb dbW [] 2 [1, 1, 1, 1, 1, 1] i <
            specProb dbW [] 2 [1, 1, 1, 1, 1, 1] j) ∧
        ( "f0", 101) = (dbW.files.getD i "", dbW.taxIds.getD i 0)) :=
  ⟨by decide, claim_C1 dbW [] 1 2 [1, 1, 1, 1, 1, 1] (by decide) ( "f0", 101)⟩

theorem claim_C7_witness :
    1 ≤ dbW.kmerLen ∧ ([78] : List Nat).length < dbW.kmerLen ∧
    (classifyCounts dbW [78] = (List.replicate dbW.numFiles 0, 0) ∧
      classify dbW [78] 1 2 [1, 1, 1, 1, 1, 1] = none) :=
  ⟨by decide, by decide, claim_C7 dbW [78] 1 2 [1, 1, 1, 1, 1, 1] (by decide)
    (Or.inl (by decide))⟩

theorem claim_C10_witness :
    (∀ rle ∈ dbW.rles, ∀ p ∈ collectIndices rle, p < dbW.numFiles) ∧
    (∀ rle ∈ dbW.rles, (collectIndices rle).Nodup) ∧
    ((classifyCounts dbW [65]).1.length = dbW.numFiles ∧
    (∀ i, (classifyCounts dbW [65]).1.getD i 0 ≤ (classifyCounts dbW [65]).2) ∧
    (∀ pr ∈ classifyCandidates dbW [1, 1, 1, 1, 1, 1] 2 (classifyCounts dbW [65]).1
        (classifyCounts dbW [65]).2,
      pr.1 < dbW.numFiles ∧
      roundQ (((classifyCounts dbW [65]).1.getD pr.1 0 : ℚ) * ((2 : Nat) : ℚ) /
        ((classifyCounts dbW [65]).2 : ℚ)) ≤ 2 ∧
      pr.1 * (2 + 1) + roundQ (((classifyCounts dbW [65]).1.getD pr.1 0 : ℚ) *
        ((2 : Nat) : ℚ) / ((classifyCounts dbW [65]).2 : ℚ)) < dbW.numFiles * (2 + 1))) :=
  ⟨by decide, by decide, claim_C10 dbW [65] 2 [1, 1, 1, 1, 1, 1] (by decide) (by decide)⟩

end Skim
